import Mathlib

/-!
Verification of the Tic-Tac-Toe game engine.

This development embeds the game logic of the repository (the rules
engine `calculateWinner` / `getAvailableMoves` / `isDraw`, the AI move
selector `getBestAIMove` with its inner `minimax` search, and the Game
controller state with its handlers) as executable Lean definitions, and
proves the behavioural properties stated in the specification.

Modelling conventions:
- a board is a `List (Option Mark)` of length 9, `none` standing for the
  JavaScript `null` cell;
- the JavaScript `undefined` result of `getBestAIMove` (no move found)
  is modelled by `Option.none`;
- `Math.random()`-driven choices are modelled by an explicit `r : Nat`
  parameter: the source picks `list[Math.floor(Math.random()*len)]`,
  the model picks `list.get (r % len)`, which ranges over exactly the
  same candidates as `r` ranges over `Nat`;
- the recursion of `minimax` is fuelled: the source recursion terminates
  because every call fills one cell, and every entry point calls it with
  fuel 9, which is at least the number of empty cells of any 9-cell
  board, so the fuel never runs out on the boards the program builds;
- the JavaScript `-Infinity` / `Infinity` fold seeds are modelled by the
  integers `-2` / `2`, which compare with the scores (all in `[-1, 1]`)
  exactly as the infinities do.
-/

namespace TicTacToe

/-- The two marks, `'X'` and `'O'` in the source. -/
inductive Mark where
  | X : Mark
  | O : Mark
deriving DecidableEq, Repr

/-- A board cell: `null` (empty) or a mark. -/
abbrev Cell := Option Mark

/-- A board: the source uses a 9-element array of cells. -/
abbrev Board := List Cell

/-- The 8 win patterns of `calculateWinner`, in source order:
rows, then columns, then diagonals. -/
def lines : List (Nat × Nat × Nat) :=
  [(0, 1, 2), (3, 4, 5), (6, 7, 8),
   (0, 3, 6), (1, 4, 7), (2, 5, 8),
   (0, 4, 8), (2, 4, 6)]

/-- Reading `squares[i]`: out-of-range reads give `undefined`, which the
source only ever compares against `null`-like values, so both are `none`. -/
def cellAt (squares : Board) (i : Nat) : Cell :=
  (squares.get? i).getD none

/-- Result record of `calculateWinner`: `{ winner, line }`. -/
structure WinResult where
  winner : Option Mark
  line : Option (Nat × Nat × Nat)
deriving DecidableEq, Repr

/-- The `for (let line of lines)` loop of `calculateWinner`: return at the
first triple whose three cells are non-empty and identical. -/
def scanLines (squares : Board) : List (Nat × Nat × Nat) → WinResult
  | [] => ⟨none, none⟩
  | l :: rest =>
    match cellAt squares l.1 with
    | some m =>
      if cellAt squares l.2.1 = some m ∧ cellAt squares l.2.2 = some m then
        ⟨some m, some l⟩
      else scanLines squares rest
    | none => scanLines squares rest

/-- `calculateWinner(squares)` of the source. -/
def calculateWinner (squares : Board) : WinResult :=
  scanLines squares lines

/-- `getAvailableMoves(squares)`: map each cell to its index when empty,
drop the rest (`squares.map((val, idx) => val == null ? idx : null)
.filter(idx => idx !== null)`). -/
def getAvailableMoves (squares : Board) : List Nat :=
  squares.enum.filterMap (fun p => if p.2 = none then some p.1 else none)

/-- `minimax(board, isMaximizing)` from inside `getBestAIMove`, with the
captured `aiMark`/`playerMark` made explicit and the recursion fuelled.
Scores: win `+1`, lose `-1`, draw `0`; the fold seeds `-2`/`2` stand for
the source's `-Infinity`/`Infinity` (all scores lie in `[-1, 1]`). -/
def minimax (aiMark playerMark : Mark) (fuel : Nat) (board : Board)
    (isMaximizing : Bool) : Int × Option Nat :=
  let result := calculateWinner board
  if result.winner = some aiMark then (1, none)
  else if result.winner = some playerMark then (-1, none)
  else if board.all (fun x => x.isSome) then (0, none)
  else
    match fuel with
    | 0 => (0, none)
    | fuel + 1 =>
      let moves := getAvailableMoves board
      moves.foldl (fun best move =>
        let nextBoard := board.set move (some (if isMaximizing then aiMark else playerMark))
        let s := (minimax aiMark playerMark fuel nextBoard !isMaximizing).1
        if isMaximizing then
          (if s > best.1 then (s, some move) else best)
        else
          (if s < best.1 then (s, some move) else best))
        ((if isMaximizing then (-2 : Int) else 2), none)

/-- The test `squares[i] == null` of the source (also true out of range,
where `squares[i]` is `undefined`). -/
def isNullAt (squares : Board) (i : Nat) : Bool :=
  cellAt squares i = none

/-- The empty corners `[0, 2, 6, 8].filter(i => squares[i] == null)`. -/
def emptyCorners (squares : Board) : List Nat :=
  [0, 2, 6, 8].filter (fun i => isNullAt squares i)

/-- The empty sides `[1, 3, 5, 7].filter(i => squares[i] == null)`. -/
def emptySides (squares : Board) : List Nat :=
  [1, 3, 5, 7].filter (fun i => isNullAt squares i)

/-- `getBestAIMove(squares, aiMark, playerMark)`. The `r` parameter models
the `Math.random()` draws; `none` models the `undefined` the source
returns when `minimax` found no move (full or already-won board). -/
def getBestAIMove (r : Nat) (squares : Board) (aiMark playerMark : Mark) : Option Nat :=
  let emptyCount := (getAvailableMoves squares).length
  if 7 ≤ emptyCount then
    if isNullAt squares 4 then some 4
    else
      let corners := emptyCorners squares
      if h : 0 < corners.length then some (corners.get ⟨r % corners.length, Nat.mod_lt r h⟩)
      else
        let sides := emptySides squares
        if h2 : 0 < sides.length then some (sides.get ⟨r % sides.length, Nat.mod_lt r h2⟩)
        else (getAvailableMoves squares).head?
  else
    (minimax aiMark playerMark 9 squares true).2

/-- `moveCount = squares.filter(Boolean).length`. -/
def moveCount (squares : Board) : Nat :=
  (squares.filter (fun c => c.isSome)).length

/-- `isDraw = !winner && moveCount === 9`. -/
def isDraw (squares : Board) : Bool :=
  !(calculateWinner squares).winner.isSome && moveCount squares == 9

/-- The all-empty board `Array(9).fill(null)`. -/
def emptyBoard : Board := List.replicate 9 none

/-- `board.every(x => x != null)`, the full-board test of `minimax`. -/
def boardFull (squares : Board) : Bool :=
  squares.all (fun x => x.isSome)

/-- A board is terminal when it has a winner or is full. -/
def terminalBoard (squares : Board) : Bool :=
  (calculateWinner squares).winner.isSome || boardFull squares

/-- The two game modes, `"pvp"` and `"ai"`. -/
inductive Mode where
  | pvp : Mode
  | ai : Mode
deriving DecidableEq, Repr

/-- The controller state of the `Game` component: the five `useState`
pieces `squares`, `xIsNext`, `mode`, `aiMark`, `isAITurning`. -/
structure GameState where
  squares : Board
  xIsNext : Bool
  mode : Mode
  aiMark : Mark
  isAITurning : Bool
deriving DecidableEq, Repr

/-- The initial state: empty board, X to move, `pvp` mode, AI mark `'O'`,
no AI move pending. -/
def initState : GameState :=
  ⟨emptyBoard, true, Mode.pvp, Mark.O, false⟩

/-- `canPlayerMove(idx)` of the `Game` component. -/
def canPlayerMove (s : GameState) (idx : Nat) : Bool :=
  if (calculateWinner s.squares).winner.isSome || isDraw s.squares then false
  else if s.mode == Mode.ai && s.isAITurning then false
  else if s.mode == Mode.ai && !s.xIsNext then false
  else isNullAt s.squares idx

/-- `handleSquareClick(idx)`: guard with `canPlayerMove`, place the active
mark, flip the turn. -/
def handleSquareClick (s : GameState) (idx : Nat) : GameState :=
  if !canPlayerMove s idx then s
  else
    { s with
      squares := s.squares.set idx (some (if s.xIsNext then Mark.X else Mark.O))
      xIsNext := !s.xIsNext }

/-- `handleRestart()`: empty board, X to move, no AI move pending. -/
def handleRestart (s : GameState) : GameState :=
  { s with squares := List.replicate 9 none, xIsNext := true, isAITurning := false }

/-- `handleModeChange(e)`: set the mode and reset the board state. -/
def handleModeChange (s : GameState) (val : Mode) : GameState :=
  { s with mode := val, squares := List.replicate 9 none, xIsNext := true,
           isAITurning := false }

/-- Entry of the AI `useEffect`: when it is the AI's turn in `"ai"` mode,
the effect first runs `setIsAITurning(true)`. -/
def aiEffectStart (s : GameState) : GameState :=
  if s.mode == Mode.ai && !(calculateWinner s.squares).winner.isSome
      && !isDraw s.squares && !s.xIsNext then
    { s with isAITurning := true }
  else s

/-- Body of the AI `useEffect` timeout: compute `getBestAIMove`, and when
it returned a move into an empty cell, write the literal `'O'` there and
hand the turn back to the player; in every case clear `isAITurning`.
The effect only fires (and its timer is only kept) under the guard
`mode === 'ai' && !winner && !isDraw && !xIsNext`. -/
def aiEffectApply (r : Nat) (s : GameState) : GameState :=
  if s.mode == Mode.ai && !(calculateWinner s.squares).winner.isSome
      && !isDraw s.squares && !s.xIsNext then
    match getBestAIMove r s.squares s.aiMark
        (if s.aiMark == Mark.X then Mark.O else Mark.X) with
    | some move =>
      if isNullAt s.squares move then
        { s with squares := s.squares.set move (some Mark.O),
                 xIsNext := true, isAITurning := false }
      else { s with isAITurning := false }
    | none => { s with isAITurning := false }
  else s

/-- States reachable from the initial state through the public
operations: human clicks (the board UI only emits indices 0–8),
restart, mode change, and the two phases of the AI effect. -/
inductive Reachable : GameState → Prop where
  | init : Reachable initState
  | click {s : GameState} (idx : Nat) : idx < 9 → Reachable s →
      Reachable (handleSquareClick s idx)
  | restart {s : GameState} : Reachable s → Reachable (handleRestart s)
  | modeChange {s : GameState} (val : Mode) : Reachable s →
      Reachable (handleModeChange s val)
  | aiStart {s : GameState} : Reachable s → Reachable (aiEffectStart s)
  | aiApply {s : GameState} (r : Nat) : Reachable s →
      Reachable (aiEffectApply r s)

/-! ### The scenario board of the minimax specification -/

/-- The board `[X,X,null,O,O,null,null,null,null]` of the spec scenario. -/
def scenarioBoard : Board :=
  [some Mark.X, some Mark.X, none, some Mark.O, some Mark.O, none, none, none, none]

/-- On the scenario board, `minimax` scores both 2 (block plus fork) and 5
(immediate row win) as `+1`, and keeps the first strictly improving move,
which is 2. -/
theorem minimax_scenarioBoard :
    minimax Mark.O Mark.X 9 scenarioBoard true = (1, some 2) := by decide!

/-- C2: on `[X,X,null,O,O,null,null,null,null]` with 5 empty cells, the
minimax branch of `getBestAIMove` does not return index 5: move 2 already
attains the maximal score and is encountered first. -/
theorem C2_counterexample :
    ¬ getBestAIMove 0 scenarioBoard Mark.O Mark.X = some 5 := by decide!

/-- C2 (amended): on the board `[X,X,null,O,O,null,null,null,null]` with
the AI playing `O`, the minimax branch of `getBestAIMove` returns index 2
(the first move in ascending order attaining the maximal score `+1`;
index 5 also wins immediately but is scanned later and does not strictly
improve). -/
theorem C2_amended (r : Nat) :
    getBestAIMove r scenarioBoard Mark.O Mark.X = some 2 := by
  have h5 : ¬ 7 ≤ (getAvailableMoves scenarioBoard).length := by decide
  unfold getBestAIMove
  rw [if_neg h5, minimax_scenarioBoard]

/-! ### Illegal moves are silently ignored (C5) -/

/-- C5: `handleSquareClick` leaves the whole state unchanged whenever the
target cell is occupied, or the game is already won or drawn, or — in
AI mode — it is not the human's turn. -/
theorem C5_illegal_click_noop (s : GameState) (idx : Nat)
    (h : isNullAt s.squares idx = false ∨
         (calculateWinner s.squares).winner.isSome = true ∨
         isDraw s.squares = true ∨
         (s.mode = Mode.ai ∧ s.xIsNext = false)) :
    handleSquareClick s idx = s := by
  have hcan : canPlayerMove s idx = false := by
    unfold canPlayerMove
    rcases h with h | h | h | ⟨hm, hx⟩
    · split
      · rfl
      · split
        · rfl
        · split
          · rfl
          · exact h
    · rw [if_pos]
      rw [h]
      exact Bool.true_or _
    · rw [if_pos]
      rw [h]
      exact Bool.or_true _
    · split
      · rfl
      · split
        · rfl
        · rw [if_pos]
          rw [hm, hx]
          rfl
  unfold handleSquareClick
  rw [hcan]
  rfl

/-- Witness for C5: clicking the occupied cell 0 changes nothing. -/
theorem C5_witness :
    handleSquareClick ⟨scenarioBoard, true, Mode.pvp, Mark.O, false⟩ 0 =
      ⟨scenarioBoard, true, Mode.pvp, Mark.O, false⟩ :=
  C5_illegal_click_noop _ 0 (Or.inl (by decide))

/-! ### Restart (C9) -/

/-- C9: restarting from any state yields exactly the empty board with X
to move, no AI move pending, and an `Ongoing` status (no winner, no
draw), while preserving the game mode (and the AI mark). -/
theorem C9_restart (s : GameState) :
    handleRestart s = { squares := List.replicate 9 none, xIsNext := true,
                        mode := s.mode, aiMark := s.aiMark, isAITurning := false } ∧
    (calculateWinner (handleRestart s).squares).winner = none ∧
    isDraw (handleRestart s).squares = false :=
  ⟨rfl, show (calculateWinner (List.replicate 9 none)).winner = none by decide,
    show isDraw (List.replicate 9 none) = false by decide⟩

/-! ### The opening heuristic (C7) -/

/-- C7: with at least 7 empty cells, `getBestAIMove` prefers the center,
then an empty corner, then an empty side, then the first available index;
in particular after X takes cell 0 on an otherwise empty board the AI
plays the center, index 4. -/
theorem C7_opening_heuristic (r : Nat) (b : Board)
    (he : 7 ≤ (getAvailableMoves b).length) :
    (isNullAt b 4 = true → getBestAIMove r b Mark.O Mark.X = some 4) ∧
    (isNullAt b 4 = false → emptyCorners b ≠ [] →
      ∃ m, getBestAIMove r b Mark.O Mark.X = some m ∧ m ∈ emptyCorners b) ∧
    (isNullAt b 4 = false → emptyCorners b = [] → emptySides b ≠ [] →
      ∃ m, getBestAIMove r b Mark.O Mark.X = some m ∧ m ∈ emptySides b) ∧
    (isNullAt b 4 = false → emptyCorners b = [] → emptySides b = [] →
      getBestAIMove r b Mark.O Mark.X = (getAvailableMoves b).head?) ∧
    getBestAIMove r (emptyBoard.set 0 (some Mark.X)) Mark.O Mark.X = some 4 := by
  refine ⟨?_, ?_, ?_, ?_, rfl⟩
  · intro h4
    unfold getBestAIMove
    rw [if_pos he, if_pos h4]
  · intro h4 hc
    have hlen : 0 < (emptyCorners b).length :=
      List.length_pos.mpr hc
    refine ⟨(emptyCorners b).get ⟨r % (emptyCorners b).length, Nat.mod_lt r hlen⟩, ?_, ?_⟩
    · unfold getBestAIMove
      rw [if_pos he, if_neg (by simp [h4]), dif_pos hlen]
    · exact List.get_mem _ _ _
  · intro h4 hc hs
    have hlen : 0 < (emptySides b).length :=
      List.length_pos.mpr hs
    refine ⟨(emptySides b).get ⟨r % (emptySides b).length, Nat.mod_lt r hlen⟩, ?_, ?_⟩
    · unfold getBestAIMove
      rw [if_pos he, if_neg (by simp [h4]), dif_neg (by simp [hc]), dif_pos hlen]
    · exact List.get_mem _ _ _
  · intro h4 hc hs
    unfold getBestAIMove
    rw [if_pos he, if_neg (by simp [h4]), dif_neg (by simp [hc]), dif_neg (by simp [hs])]

/-- Witness for C7: after X takes cell 0, the heuristic picks the
center. -/
theorem C7_witness :
    getBestAIMove 3 (emptyBoard.set 0 (some Mark.X)) Mark.O Mark.X = some 4 :=
  (C7_opening_heuristic 3 (emptyBoard.set 0 (some Mark.X)) (by decide)).2.2.2.2

/-! ### Draw detection (C8) -/

/-- The full drawn board `[X,O,X,O,X,O,O,X,O]` of the spec scenario. -/
def drawBoard : Board :=
  [some Mark.X, some Mark.O, some Mark.X, some Mark.O, some Mark.X,
   some Mark.O, some Mark.O, some Mark.X, some Mark.O]

/-- Occupied cells of a 9-cell board, counted by `moveCount`, are all
nine exactly when every index below 9 holds a mark. -/
theorem moveCount_eq_nine_iff (b : Board) (h9 : b.length = 9) :
    moveCount b = 9 ↔ ∀ i, i < 9 → cellAt b i ≠ none := by
  unfold moveCount
  rw [← List.countP_eq_length_filter]
  constructor
  · intro hlen i hi
    have hall : ∀ c ∈ b, c.isSome = true := by
      rw [← List.countP_eq_length]
      rw [hlen, h9]
    have hget : b.get? i = some (b.get ⟨i, by omega⟩) := List.get?_eq_get _
    have hmem : b.get ⟨i, by omega⟩ ∈ b := List.get_mem _ _ _
    have hsome := hall _ hmem
    unfold cellAt
    rw [hget]
    simp only [Option.getD_some]
    intro hnone
    rw [hnone] at hsome
    exact Bool.false_ne_true hsome
  · intro hocc
    have hall : ∀ c ∈ b, c.isSome = true := by
      intro c hc
      obtain ⟨n, hn⟩ := List.mem_iff_get?.mp hc
      have hlt : n < b.length := by
        rcases List.get?_eq_some.mp hn with ⟨h, _⟩
        exact h
      have := hocc n (by omega)
      unfold cellAt at this
      rw [hn] at this
      simp only [Option.getD_some] at this
      cases c
      · exact absurd rfl this
      · rfl
    rw [List.countP_eq_length.mpr hall, h9]

/-- C8: the draw status is true exactly when there is no winner and all
nine cells are occupied; in particular the full board
`[X,O,X,O,X,O,O,X,O]` has no winner and is drawn. -/
theorem C8_isDraw (b : Board) (h9 : b.length = 9) :
    (isDraw b = true ↔
      (calculateWinner b).winner = none ∧ ∀ i, i < 9 → cellAt b i ≠ none) ∧
    (calculateWinner drawBoard).winner = none ∧ isDraw drawBoard = true := by
  refine ⟨?_, by decide, by decide⟩
  unfold isDraw
  rw [Bool.and_eq_true, beq_iff_eq, Bool.not_eq_true', Option.not_isSome,
    Option.isNone_iff_eq_none, moveCount_eq_nine_iff b h9]

/-- Witness for C8: the scenario board itself satisfies the equivalence. -/
theorem C8_witness :
    isDraw drawBoard = true ↔
      (calculateWinner drawBoard).winner = none ∧
        ∀ i, i < 9 → cellAt drawBoard i ≠ none :=
  (C8_isDraw drawBoard (by decide)).1

/-! ### Winner detection (C3) -/

/-- A triple is filled when its three cells are non-empty and identical
(the loop condition of `calculateWinner`). -/
def lineFilled (b : Board) (l : Nat × Nat × Nat) : Bool :=
  match cellAt b l.1 with
  | some m => decide (cellAt b l.2.1 = some m ∧ cellAt b l.2.2 = some m)
  | none => false

/-- The scan of `calculateWinner` returns the first filled triple, in
`List.find?` order. -/
theorem scanLines_eq_find (b : Board) (ls : List (Nat × Nat × Nat)) :
    scanLines b ls =
      match ls.find? (lineFilled b) with
      | some l => ⟨cellAt b l.1, some l⟩
      | none => ⟨none, none⟩ := by
  induction ls with
  | nil => rfl
  | cons l rest ih =>
    unfold scanLines
    rcases h : cellAt b l.1 with _ | m
    · have hf : lineFilled b l = false := by
        unfold lineFilled
        rw [h]
      rw [List.find?_cons_of_neg _ (by rw [hf]; exact Bool.false_ne_true)]
      exact ih
    · by_cases hc : cellAt b l.2.1 = some m ∧ cellAt b l.2.2 = some m
      · have hf : lineFilled b l = true := by
          unfold lineFilled
          rw [h]
          exact decide_eq_true hc
        rw [List.find?_cons_of_pos _ hf]
        show (if cellAt b l.2.1 = some m ∧ cellAt b l.2.2 = some m then
            (⟨some m, some l⟩ : WinResult) else scanLines b rest) = ⟨cellAt b l.1, some l⟩
        rw [if_pos hc, h]
      · have hf : lineFilled b l = false := by
          unfold lineFilled
          rw [h]
          exact decide_eq_false hc
        rw [List.find?_cons_of_neg _ (by rw [hf]; exact Bool.false_ne_true)]
        show (if cellAt b l.2.1 = some m ∧ cellAt b l.2.2 = some m then
            (⟨some m, some l⟩ : WinResult) else scanLines b rest) = _
        rw [if_neg hc]
        exact ih

/-- Full behavioural characterisation of `calculateWinner`, shared by
several results below. -/
theorem calculateWinner_spec (b : Board) :
    ((calculateWinner b).winner.isSome = true ↔
      ∃ l ∈ lines, ∃ m, cellAt b l.1 = some m ∧
        cellAt b l.2.1 = some m ∧ cellAt b l.2.2 = some m) ∧
    (∀ w l, calculateWinner b = ⟨some w, some l⟩ →
      l ∈ lines ∧ cellAt b l.1 = some w ∧ cellAt b l.2.1 = some w ∧
        cellAt b l.2.2 = some w ∧ lines.find? (lineFilled b) = some l) ∧
    (∀ w w2 l l2, calculateWinner b = ⟨some w, some l⟩ →
      calculateWinner b = ⟨some w2, some l2⟩ → w = w2 ∧ l = l2) := by
  have hscan := scanLines_eq_find b lines
  have hfill : ∀ l, lineFilled b l = true ↔
      ∃ m, cellAt b l.1 = some m ∧ cellAt b l.2.1 = some m ∧ cellAt b l.2.2 = some m := by
    intro l
    unfold lineFilled
    rcases h : cellAt b l.1 with _ | m
    · simp
    · simp only [decide_eq_true_eq]
      constructor
      · rintro ⟨h1, h2⟩
        exact ⟨m, rfl, h1, h2⟩
      · rintro ⟨m2, hm2, h1, h2⟩
        obtain rfl : m = m2 := Option.some_injective _ hm2.symm ▸ rfl
        exact ⟨h1, h2⟩
  refine ⟨?_, ?_, ?_⟩
  · unfold calculateWinner
    rw [hscan]
    rcases hf : lines.find? (lineFilled b) with _ | l
    · refine ⟨fun h => absurd h (by simp), ?_⟩
      rintro ⟨l, hl, m, hm⟩
      have hfn := List.find?_eq_none.mp hf l hl
      rw [(hfill l).mpr ⟨m, hm⟩] at hfn
      exact absurd rfl hfn
    · have hl : lineFilled b l = true := List.find?_some hf
      have hmem : l ∈ lines := List.mem_of_find?_eq_some hf
      obtain ⟨m, hm⟩ := (hfill l).mp hl
      show (WinResult.mk (cellAt b l.1) (some l)).winner.isSome = true ↔ _
      simp only [hm.1, Option.isSome_some, true_iff]
      exact ⟨l, hmem, m, hm⟩
  · intro w l heq
    unfold calculateWinner at heq
    rw [hscan] at heq
    rcases hf : lines.find? (lineFilled b) with _ | l2
    · rw [hf] at heq
      exact absurd (congrArg WinResult.winner heq) (by simp)
    · rw [hf] at heq
      have hl2 : lineFilled b l2 = true := List.find?_some hf
      have hmem : l2 ∈ lines := List.mem_of_find?_eq_some hf
      have hwin : cellAt b l2.1 = some w := congrArg WinResult.winner heq
      have hline : l2 = l := by
        have := congrArg WinResult.line heq
        exact Option.some_injective _ this
      subst hline
      obtain ⟨m, hm⟩ := (hfill l2).mp hl2
      obtain rfl : m = w := by
        rw [hm.1] at hwin
        exact Option.some_injective _ hwin
      exact ⟨hmem, hm.1, hm.2.1, hm.2.2, rfl⟩
  · intro w w2 l l2 h1 h2
    rw [h1] at h2
    simp only [WinResult.mk.injEq, Option.some.injEq] at h2
    exact h2

/-- C3: `calculateWinner` reports a winner exactly when one of the 8
fixed triples is fully occupied by a single mark; the reported triple is
the first filled one in the fixed order (rows, columns, diagonals, via
`List.find?`), carries the mark occupying it, and the result is unique
and deterministic. -/
theorem C3_calculateWinner (b : Board) :
    ((calculateWinner b).winner.isSome = true ↔
      ∃ l ∈ lines, ∃ m, cellAt b l.1 = some m ∧
        cellAt b l.2.1 = some m ∧ cellAt b l.2.2 = some m) ∧
    (∀ w l, calculateWinner b = ⟨some w, some l⟩ →
      l ∈ lines ∧ cellAt b l.1 = some w ∧ cellAt b l.2.1 = some w ∧
        cellAt b l.2.2 = some w ∧ lines.find? (lineFilled b) = some l) ∧
    (∀ w w2 l l2, calculateWinner b = ⟨some w, some l⟩ →
      calculateWinner b = ⟨some w2, some l2⟩ → w = w2 ∧ l = l2) :=
  calculateWinner_spec b

/-- Witness for C3: on `[X,O,X,X,O,O,X,null,null]` the winner is X on
the first filled triple, the column `(0,3,6)` scanned after the rows. -/
theorem C3_witness :
    (0, 3, 6) ∈ lines ∧
      cellAt [some Mark.X, some Mark.O, some Mark.X, some Mark.X, some Mark.O,
        some Mark.O, some Mark.X, none, none] (0, 3, 6).1 = some Mark.X ∧
      cellAt [some Mark.X, some Mark.O, some Mark.X, some Mark.X, some Mark.O,
        some Mark.O, some Mark.X, none, none] (0, 3, 6).2.1 = some Mark.X ∧
      cellAt [some Mark.X, some Mark.O, some Mark.X, some Mark.X, some Mark.O,
        some Mark.O, some Mark.X, none, none] (0, 3, 6).2.2 = some Mark.X ∧
      lines.find? (lineFilled [some Mark.X, some Mark.O, some Mark.X, some Mark.X,
        some Mark.O, some Mark.O, some Mark.X, none, none]) = some (0, 3, 6) :=
  (C3_calculateWinner _).2.1 Mark.X (0, 3, 6) (by decide)

/-! ### Cell and available-move lemmas -/

/-- Reading a just-written cell. -/
theorem cellAt_set_self {b : Board} {i : Nat} (h : i < b.length) (v : Cell) :
    cellAt (b.set i v) i = v := by
  unfold cellAt
  rw [List.get?_eq_getElem?, List.getElem?_set_self h]
  rfl

/-- Reading another cell after a write. -/
theorem cellAt_set_ne {b : Board} {i j : Nat} (h : i ≠ j) (v : Cell) :
    cellAt (b.set i v) j = cellAt b j := by
  unfold cellAt
  rw [List.get?_eq_getElem?, List.get?_eq_getElem?, List.getElem?_set_ne h]

/-- `getAvailableMoves` is the ascending list of indices of empty cells. -/
theorem getAvailableMoves_eq (b : Board) :
    getAvailableMoves b = (List.range b.length).filter (fun i => isNullAt b i) := by
  induction b with
  | nil => rfl
  | cons c t ih =>
    unfold getAvailableMoves
    rw [List.enum_cons', List.filterMap_cons, List.filterMap_map]
    have hcomp :
        ((fun p => if p.2 = none then some p.1 else none) ∘ Prod.map (· + 1) id :
            Nat × Cell → Option Nat) =
          fun p : Nat × Cell =>
            ((fun q : Nat × Cell => if q.2 = none then some q.1 else none) p).map (· + 1) := by
      funext p
      rcases p with ⟨i, v⟩
      rcases v with _ | m
      · rfl
      · rfl
    rw [hcomp, ← List.map_filterMap]
    have ihv : (List.filterMap (fun p : Nat × Cell =>
        if p.2 = none then some p.1 else none) t.enum) = getAvailableMoves t := rfl
    rw [ihv, ih]
    show _ = List.filter (fun i => isNullAt (c :: t) i) (List.range (t.length + 1))
    rw [List.range_succ_eq_map, List.filter_cons, List.filter_map]
    have hps : ((fun i => isNullAt (c :: t) i) ∘ Nat.succ) = fun i => isNullAt t i := by
      funext i
      rfl
    rw [hps]
    rcases c with _ | m
    · rfl
    · rfl

/-- Membership in `getAvailableMoves`: the in-range empty cells. -/
theorem mem_getAvailableMoves {b : Board} {i : Nat} :
    i ∈ getAvailableMoves b ↔ i < b.length ∧ cellAt b i = none := by
  rw [getAvailableMoves_eq, List.mem_filter, List.mem_range]
  unfold isNullAt
  rw [decide_eq_true_eq]

/-- The available-move list never repeats an index. -/
theorem getAvailableMoves_nodup (b : Board) : (getAvailableMoves b).Nodup := by
  rw [getAvailableMoves_eq]
  exact (List.nodup_range _).filter _

/-- There are at most as many available moves as cells. -/
theorem getAvailableMoves_length_le (b : Board) :
    (getAvailableMoves b).length ≤ b.length := by
  rw [getAvailableMoves_eq]
  calc (List.filter _ (List.range b.length)).length
      ≤ (List.range b.length).length := List.length_filter_le _ _
    _ = b.length := List.length_range _

/-- A board is full exactly when no move is available. -/
theorem boardFull_iff_avail_nil {b : Board} :
    boardFull b = true ↔ getAvailableMoves b = [] := by
  unfold boardFull
  rw [List.all_eq_true, List.eq_nil_iff_forall_not_mem]
  constructor
  · intro hall i hi
    rcases mem_getAvailableMoves.mp hi with ⟨hlt, hcell⟩
    have hget : b.get? i = some (b.get ⟨i, hlt⟩) := List.get?_eq_get hlt
    have hmem : b.get ⟨i, hlt⟩ ∈ b := List.get_mem _ _ _
    have hsome := hall _ hmem
    unfold cellAt at hcell
    rw [hget] at hcell
    simp only [Option.getD_some] at hcell
    rw [hcell] at hsome
    exact Bool.false_ne_true hsome
  · intro hnone c hc
    obtain ⟨n, hn⟩ := List.mem_iff_get?.mp hc
    have hlt : n < b.length := by
      rcases List.get?_eq_some.mp hn with ⟨h, _⟩
      exact h
    rcases c with _ | m
    · exfalso
      refine hnone n (mem_getAvailableMoves.mpr ⟨hlt, ?_⟩)
      unfold cellAt
      rw [hn]
      rfl
    · rfl

/-- Generic counting step: turning exactly one selected element of a
duplicate-free list from accepted to rejected drops the filter length
by one. -/
theorem filter_length_flip {l : List Nat} {p q : Nat → Bool} {i : Nat}
    (hnd : l.Nodup) (hmem : i ∈ l) (hpi : p i = true) (hqi : q i = false)
    (hagree : ∀ j ∈ l, j ≠ i → p j = q j) :
    (l.filter q).length + 1 = (l.filter p).length := by
  induction l with
  | nil => cases hmem
  | cons x t ih =>
    rw [List.nodup_cons] at hnd
    rcases List.mem_cons.mp hmem with rfl | hit
    · have hqt : t.filter q = t.filter p := by
        apply List.filter_congr
        intro j hj
        exact (hagree j (List.mem_cons_of_mem _ hj) (fun hji => hnd.1 (hji ▸ hj))).symm
      rw [List.filter_cons, List.filter_cons, hpi, hqi, hqt]
      simp
    · have hxi : x ≠ i := fun hxe => hnd.1 (hxe ▸ hit)
      have hx : p x = q x := hagree x (List.mem_cons_self _ _) hxi
      have := ih hnd.2 hit (fun j hj hji => hagree j (List.mem_cons_of_mem _ hj) hji)
      rw [List.filter_cons, List.filter_cons, ← hx]
      rcases hpx : p x with _ | _
      · simpa using this
      · simpa using this

/-- Writing a mark into an empty in-range cell removes exactly that
index from the available moves. -/
theorem avail_set_length {b : Board} {i : Nat} (hlt : i < b.length)
    (hcell : cellAt b i = none) (m : Mark) :
    (getAvailableMoves (b.set i (some m))).length + 1 =
      (getAvailableMoves b).length := by
  rw [getAvailableMoves_eq, getAvailableMoves_eq, List.length_set]
  refine filter_length_flip (List.nodup_range _) (List.mem_range.mpr hlt) ?_ ?_ ?_
  · unfold isNullAt
    rw [decide_eq_true_eq]
    exact hcell
  · unfold isNullAt
    rw [decide_eq_false_iff_not]
    rw [cellAt_set_self hlt]
    intro h
    cases h
  · intro j _ hji
    unfold isNullAt
    rw [cellAt_set_ne (fun h => hji h.symm)]

/-! ### The minimax fold -/

/-- The loop body of `minimax` at a maximizing node, with `g` the score
of the continuation after each move. -/
def stepOfMax (g : Nat → Int) (best : Int × Option Nat) (move : Nat) : Int × Option Nat :=
  if g move > best.1 then (g move, some move) else best

/-- The loop body of `minimax` at a minimizing node. -/
def stepOfMin (g : Nat → Int) (best : Int × Option Nat) (move : Nat) : Int × Option Nat :=
  if g move < best.1 then (g move, some move) else best

/-- The maximizing fold either keeps its seed (when no move improves on
it) or returns the first move attaining the maximum. -/
theorem foldl_stepOfMax_spec (g : Nat → Int) :
    ∀ (l : List Nat) (a : Int) (mo : Option Nat),
      (l.foldl (stepOfMax g) (a, mo) = (a, mo) ∧ ∀ x ∈ l, g x ≤ a) ∨
      (∃ m ∈ l, l.foldl (stepOfMax g) (a, mo) = (g m, some m) ∧ a < g m ∧
        ∀ x ∈ l, g x ≤ g m) := by
  intro l
  induction l with
  | nil =>
    intro a mo
    exact Or.inl ⟨rfl, by intro x hx; cases hx⟩
  | cons x t ih =>
    intro a mo
    have hstep : stepOfMax g (a, mo) x =
        if g x > a then (g x, some x) else (a, mo) := rfl
    rw [List.foldl_cons, hstep]
    by_cases h : g x > a
    · rw [if_pos h]
      rcases ih (g x) (some x) with ⟨heq, hb⟩ | ⟨m, hm, heq, hlt, hb⟩
      · refine Or.inr ⟨x, List.mem_cons_self _ _, heq, h, ?_⟩
        intro y hy
        rcases List.mem_cons.mp hy with rfl | hyt
        · exact le_refl _
        · exact hb y hyt
      · refine Or.inr ⟨m, List.mem_cons_of_mem _ hm, heq, lt_trans h hlt, ?_⟩
        intro y hy
        rcases List.mem_cons.mp hy with rfl | hyt
        · exact le_of_lt hlt
        · exact hb y hyt
    · rw [if_neg h]
      have hxa : g x ≤ a := not_lt.mp h
      rcases ih a mo with ⟨heq, hb⟩ | ⟨m, hm, heq, hlt, hb⟩
      · refine Or.inl ⟨heq, ?_⟩
        intro y hy
        rcases List.mem_cons.mp hy with rfl | hyt
        · exact hxa
        · exact hb y hyt
      · refine Or.inr ⟨m, List.mem_cons_of_mem _ hm, heq, hlt, ?_⟩
        intro y hy
        rcases List.mem_cons.mp hy with rfl | hyt
        · exact le_trans hxa (le_of_lt hlt)
        · exact hb y hyt

/-- The minimizing fold either keeps its seed or returns the first move
attaining the minimum. -/
theorem foldl_stepOfMin_spec (g : Nat → Int) :
    ∀ (l : List Nat) (a : Int) (mo : Option Nat),
      (l.foldl (stepOfMin g) (a, mo) = (a, mo) ∧ ∀ x ∈ l, a ≤ g x) ∨
      (∃ m ∈ l, l.foldl (stepOfMin g) (a, mo) = (g m, some m) ∧ g m < a ∧
        ∀ x ∈ l, g m ≤ g x) := by
  intro l
  induction l with
  | nil =>
    intro a mo
    exact Or.inl ⟨rfl, by intro x hx; cases hx⟩
  | cons x t ih =>
    intro a mo
    have hstep : stepOfMin g (a, mo) x =
        if g x < a then (g x, some x) else (a, mo) := rfl
    rw [List.foldl_cons, hstep]
    by_cases h : g x < a
    · rw [if_pos h]
      rcases ih (g x) (some x) with ⟨heq, hb⟩ | ⟨m, hm, heq, hlt, hb⟩
      · refine Or.inr ⟨x, List.mem_cons_self _ _, heq, h, ?_⟩
        intro y hy
        rcases List.mem_cons.mp hy with rfl | hyt
        · exact le_refl _
        · exact hb y hyt
      · refine Or.inr ⟨m, List.mem_cons_of_mem _ hm, heq, lt_trans hlt h, ?_⟩
        intro y hy
        rcases List.mem_cons.mp hy with rfl | hyt
        · exact le_of_lt hlt
        · exact hb y hyt
    · rw [if_neg h]
      have hxa : a ≤ g x := not_lt.mp h
      rcases ih a mo with ⟨heq, hb⟩ | ⟨m, hm, heq, hlt, hb⟩
      · refine Or.inl ⟨heq, ?_⟩
        intro y hy
        rcases List.mem_cons.mp hy with rfl | hyt
        · exact hxa
        · exact hb y hyt
      · refine Or.inr ⟨m, List.mem_cons_of_mem _ hm, heq, hlt, ?_⟩
        intro y hy
        rcases List.mem_cons.mp hy with rfl | hyt
        · exact le_trans (le_of_lt hlt) hxa
        · exact hb y hyt

/-- Unfolding `minimax` at a maximizing interior node. -/
theorem minimax_max_eq (ai pl : Mark) (fuel : Nat) (b : Board)
    (hai : ¬ (calculateWinner b).winner = some ai)
    (hpl : ¬ (calculateWinner b).winner = some pl)
    (hfull : ¬ b.all (fun x => x.isSome) = true) :
    minimax ai pl (fuel + 1) b true =
      (getAvailableMoves b).foldl
        (stepOfMax (fun move => (minimax ai pl fuel (b.set move (some ai)) false).1))
        (-2, none) := by
  rw [minimax.eq_def]
  rw [if_neg hai, if_neg hpl, if_neg hfull]
  rfl

/-- Unfolding `minimax` at a minimizing interior node. -/
theorem minimax_min_eq (ai pl : Mark) (fuel : Nat) (b : Board)
    (hai : ¬ (calculateWinner b).winner = some ai)
    (hpl : ¬ (calculateWinner b).winner = some pl)
    (hfull : ¬ b.all (fun x => x.isSome) = true) :
    minimax ai pl (fuel + 1) b false =
      (getAvailableMoves b).foldl
        (stepOfMin (fun move => (minimax ai pl fuel (b.set move (some pl)) true).1))
        (2, none) := by
  rw [minimax.eq_def]
  rw [if_neg hai, if_neg hpl, if_neg hfull]
  rfl

/-- Scores of `minimax` always lie in `[-1, 1]`. -/
theorem minimax_score_bounds (ai pl : Mark) :
    ∀ (fuel : Nat) (b : Board) (mx : Bool),
      -1 ≤ (minimax ai pl fuel b mx).1 ∧ (minimax ai pl fuel b mx).1 ≤ 1 := by
  intro fuel
  induction fuel with
  | zero =>
    intro b mx
    rw [minimax.eq_def]
    by_cases h1 : (calculateWinner b).winner = some ai
    · rw [if_pos h1]
      exact ⟨by norm_num, le_refl _⟩
    · rw [if_neg h1]
      by_cases h2 : (calculateWinner b).winner = some pl
      · rw [if_pos h2]
        exact ⟨le_refl _, by norm_num⟩
      · rw [if_neg h2]
        by_cases h3 : b.all (fun x => x.isSome) = true
        · rw [if_pos h3]
          exact ⟨by norm_num, by norm_num⟩
        · rw [if_neg h3]
          exact ⟨by norm_num, by norm_num⟩
  | succ fuel ih =>
    intro b mx
    by_cases h1 : (calculateWinner b).winner = some ai
    · rw [minimax.eq_def, if_pos h1]
      exact ⟨by norm_num, le_refl _⟩
    · by_cases h2 : (calculateWinner b).winner = some pl
      · rw [minimax.eq_def, if_neg h1, if_pos h2]
        exact ⟨le_refl _, by norm_num⟩
      · by_cases h3 : b.all (fun x => x.isSome) = true
        · rw [minimax.eq_def, if_neg h1, if_neg h2, if_pos h3]
          exact ⟨by norm_num, by norm_num⟩
        · have hne : getAvailableMoves b ≠ [] := by
            intro hnil
            exact h3 (boardFull_iff_avail_nil.mpr hnil)
          rcases hx : getAvailableMoves b with _ | ⟨x, t⟩
          · exact absurd hx hne
          · cases mx
            · rw [minimax_min_eq ai pl fuel b h1 h2 h3, hx]
              rcases foldl_stepOfMin_spec
                  (fun move => (minimax ai pl fuel (b.set move (some pl)) true).1)
                  (x :: t) 2 none with ⟨heq, hb⟩ | ⟨m, _, heq, _, _⟩
              · exfalso
                have := hb x (List.mem_cons_self _ _)
                have hub := (ih (b.set x (some pl)) true).2
                omega
              · rw [heq]
                exact ih (b.set m (some pl)) true
            · rw [minimax_max_eq ai pl fuel b h1 h2 h3, hx]
              rcases foldl_stepOfMax_spec
                  (fun move => (minimax ai pl fuel (b.set move (some ai)) false).1)
                  (x :: t) (-2) none with ⟨heq, hb⟩ | ⟨m, _, heq, _, _⟩
              · exfalso
                have := hb x (List.mem_cons_self _ _)
                have hlb := (ih (b.set x (some ai)) false).1
                omega
              · rw [heq]
                exact ih (b.set m (some ai)) false

/-- Any move returned by `minimax` is one of the available moves. -/
theorem minimax_move_mem (ai pl : Mark) (fuel : Nat) (b : Board) (mx : Bool) (m : Nat)
    (h : (minimax ai pl fuel b mx).2 = some m) :
    m ∈ getAvailableMoves b := by
  by_cases h1 : (calculateWinner b).winner = some ai
  · rw [minimax.eq_def, if_pos h1] at h
    cases h
  · by_cases h2 : (calculateWinner b).winner = some pl
    · rw [minimax.eq_def, if_neg h1, if_pos h2] at h
      cases h
    · by_cases h3 : b.all (fun x => x.isSome) = true
      · rw [minimax.eq_def, if_neg h1, if_neg h2, if_pos h3] at h
        cases h
      · rcases fuel with _ | fuel
        · rw [minimax.eq_def, if_neg h1, if_neg h2, if_neg h3] at h
          cases h
        · cases mx
          · rw [minimax_min_eq ai pl fuel b h1 h2 h3] at h
            rcases foldl_stepOfMin_spec
                (fun move => (minimax ai pl fuel (b.set move (some pl)) true).1)
                (getAvailableMoves b) 2 none with ⟨heq, _⟩ | ⟨m2, hm2, heq, _, _⟩
            · rw [heq] at h
              cases h
            · rw [heq] at h
              obtain rfl : m2 = m := Option.some_injective _ h
              exact hm2
          · rw [minimax_max_eq ai pl fuel b h1 h2 h3] at h
            rcases foldl_stepOfMax_spec
                (fun move => (minimax ai pl fuel (b.set move (some ai)) false).1)
                (getAvailableMoves b) (-2) none with ⟨heq, _⟩ | ⟨m2, hm2, heq, _, _⟩
            · rw [heq] at h
              cases h
            · rw [heq] at h
              obtain rfl : m2 = m := Option.some_injective _ h
              exact hm2

/-- At a non-terminal board, `minimax` with positive fuel returns a
move. -/
theorem minimax_returns_move (ai pl : Mark) (fuel : Nat) (b : Board) (mx : Bool)
    (h1 : ¬ (calculateWinner b).winner = some ai)
    (h2 : ¬ (calculateWinner b).winner = some pl)
    (h3 : ¬ b.all (fun x => x.isSome) = true) :
    ∃ m, (minimax ai pl (fuel + 1) b mx).2 = some m := by
  have hne : getAvailableMoves b ≠ [] := by
    intro hnil
    exact h3 (boardFull_iff_avail_nil.mpr hnil)
  rcases hx : getAvailableMoves b with _ | ⟨x, t⟩
  · exact absurd hx hne
  · cases mx
    · rw [minimax_min_eq ai pl fuel b h1 h2 h3, hx]
      rcases foldl_stepOfMin_spec
          (fun move => (minimax ai pl fuel (b.set move (some pl)) true).1)
          (x :: t) 2 none with ⟨heq, hb⟩ | ⟨m, _, heq, _, _⟩
      · exfalso
        have := hb x (List.mem_cons_self _ _)
        have hub := (minimax_score_bounds ai pl fuel (b.set x (some pl)) true).2
        omega
      · exact ⟨m, by rw [heq]⟩
    · rw [minimax_max_eq ai pl fuel b h1 h2 h3, hx]
      rcases foldl_stepOfMax_spec
          (fun move => (minimax ai pl fuel (b.set move (some ai)) false).1)
          (x :: t) (-2) none with ⟨heq, hb⟩ | ⟨m, _, heq, _, _⟩
      · exfalso
        have := hb x (List.mem_cons_self _ _)
        have hlb := (minimax_score_bounds ai pl fuel (b.set x (some ai)) false).1
        omega
      · exact ⟨m, by rw [heq]⟩

/-! ### The AI always answers with an available move -/

/-- Every move `getBestAIMove` returns on a 9-cell board is the index of
an empty cell of the board. -/
theorem getBestAIMove_mem {r : Nat} {b : Board} {ai pl : Mark} {m : Nat}
    (h9 : b.length = 9) (h : getBestAIMove r b ai pl = some m) :
    m ∈ getAvailableMoves b := by
  unfold getBestAIMove at h
  by_cases he : 7 ≤ (getAvailableMoves b).length
  · rw [if_pos he] at h
    by_cases h4 : isNullAt b 4 = true
    · rw [if_pos h4] at h
      obtain rfl : (4 : Nat) = m := Option.some_injective _ h
      refine mem_getAvailableMoves.mpr ⟨by omega, ?_⟩
      unfold isNullAt at h4
      exact of_decide_eq_true h4
    · rw [if_neg h4] at h
      by_cases hc : 0 < (emptyCorners b).length
      · rw [dif_pos hc] at h
        obtain rfl := Option.some_injective _ h
        have hmem : (emptyCorners b).get
            ⟨r % (emptyCorners b).length, Nat.mod_lt r hc⟩ ∈ emptyCorners b :=
          List.get_mem _ _ _
        rcases List.mem_filter.mp hmem with ⟨hm08, hnull⟩
        refine mem_getAvailableMoves.mpr ⟨?_, of_decide_eq_true hnull⟩
        rw [h9]
        have hd : ∀ y : Nat, y ∈ [0, 2, 6, 8] → y = 0 ∨ y = 2 ∨ y = 6 ∨ y = 8 := by
          intro y hy
          simpa using hy
        rcases hd _ hm08 with h0 | h0 | h0 | h0 <;> omega
      · rw [dif_neg hc] at h
        by_cases hs : 0 < (emptySides b).length
        · rw [dif_pos hs] at h
          obtain rfl := Option.some_injective _ h
          have hmem : (emptySides b).get
              ⟨r % (emptySides b).length, Nat.mod_lt r hs⟩ ∈ emptySides b :=
            List.get_mem _ _ _
          rcases List.mem_filter.mp hmem with ⟨hm08, hnull⟩
          refine mem_getAvailableMoves.mpr ⟨?_, of_decide_eq_true hnull⟩
          rw [h9]
          have hd : ∀ y : Nat, y ∈ [1, 3, 5, 7] → y = 1 ∨ y = 3 ∨ y = 5 ∨ y = 7 := by
            intro y hy
            simpa using hy
          rcases hd _ hm08 with h0 | h0 | h0 | h0 <;> omega
        · rw [dif_neg hs] at h
          exact List.mem_of_mem_head? (Option.mem_def.mpr h)
  · rw [if_neg he] at h
    exact minimax_move_mem ai pl 9 b true m h

/-! ### Counting marks (C4, C10) -/

/-- Number of cells carrying mark `m`. -/
def countMark (m : Mark) (b : Board) : Nat :=
  b.count (some m)

/-- Writing a mark into an empty cell adds one to its count. -/
theorem countMark_set_same : ∀ (b : Board) (i : Nat), i < b.length →
    cellAt b i = none → ∀ m : Mark,
    countMark m (b.set i (some m)) = countMark m b + 1 := by
  intro b
  induction b with
  | nil =>
    intro i h
    cases h
  | cons c t ih =>
    intro i hlt hempty m
    rcases i with _ | i
    · have hc : c = none := hempty
      subst hc
      unfold countMark
      rw [List.set_cons_zero, List.count_cons_self, List.count_cons_of_ne (by simp)]
    · unfold countMark
      rw [List.set_cons_succ, List.count_cons, List.count_cons]
      have := ih i (by simpa using hlt) hempty m
      unfold countMark at this
      omega

/-- Writing a mark into an empty cell leaves the other counts alone. -/
theorem countMark_set_other : ∀ (b : Board) (i : Nat), i < b.length →
    cellAt b i = none → ∀ m w : Mark, w ≠ m →
    countMark w (b.set i (some m)) = countMark w b := by
  intro b
  induction b with
  | nil =>
    intro i h
    cases h
  | cons c t ih =>
    intro i hlt hempty m w hw
    rcases i with _ | i
    · have hc : c = none := hempty
      subst hc
      unfold countMark
      rw [List.set_cons_zero, List.count_cons_of_ne (by simpa using hw),
        List.count_cons_of_ne (by simp)]
    · unfold countMark
      rw [List.set_cons_succ, List.count_cons, List.count_cons]
      have := ih i (by simpa using hlt) hempty m w hw
      unfold countMark at this
      omega

/-- A successful `canPlayerMove` means the target cell is empty. -/
theorem canPlayerMove_isNull {s : GameState} {idx : Nat}
    (h : canPlayerMove s idx = true) : cellAt s.squares idx = none := by
  unfold canPlayerMove at h
  split at h
  · cases h
  · split at h
    · cases h
    · split at h
      · cases h
      · exact of_decide_eq_true h

/-- The state invariant maintained by every public operation: 9 cells,
AI mark fixed to `O`, and the mark counts locked to the turn flag. -/
def StateInv (s : GameState) : Prop :=
  s.squares.length = 9 ∧ s.aiMark = Mark.O ∧
  (s.xIsNext = true → countMark Mark.X s.squares = countMark Mark.O s.squares) ∧
  (s.xIsNext = false → countMark Mark.X s.squares = countMark Mark.O s.squares + 1)

/-- The invariant holds after any reset to the empty board. -/
theorem stateInv_reset (m : Mode) (am : Mark) (ham : am = Mark.O) (t : Bool) :
    StateInv ⟨List.replicate 9 none, true, m, am, t⟩ :=
  ⟨show (List.replicate 9 (none : Cell)).length = 9 by decide, ham,
    fun _ => show countMark Mark.X (List.replicate 9 none) =
      countMark Mark.O (List.replicate 9 none) by decide,
    fun hc => by cases hc⟩

/-- Every reachable state satisfies the invariant. -/
theorem reachable_inv {s : GameState} (h : Reachable s) : StateInv s := by
  induction h with
  | init => exact stateInv_reset Mode.pvp Mark.O rfl false
  | @click s idx hlt9 _ ih =>
    unfold handleSquareClick
    rcases hcan : canPlayerMove s idx with _ | _
    · rw [Bool.not_false, if_pos rfl]
      exact ih
    · rw [Bool.not_true, if_neg (by simp)]
      have hempty : cellAt s.squares idx = none := canPlayerMove_isNull hcan
      have hlt : idx < s.squares.length := by
        rw [ih.1]
        exact hlt9
      rcases hx : s.xIsNext with _ | _
      · -- O is to move: an O mark is placed and the turn returns to X
        refine ⟨by simpa using ih.1, ih.2.1, fun _ => ?_, fun hc => ?_⟩
        · show countMark Mark.X (s.squares.set idx (some Mark.O)) =
            countMark Mark.O (s.squares.set idx (some Mark.O))
          rw [countMark_set_same s.squares idx hlt hempty,
            countMark_set_other s.squares idx hlt hempty Mark.O Mark.X (by simp)]
          exact ih.2.2.2 hx
        · exact absurd (show (true : Bool) = false from hc) (by simp)
      · -- X is to move: an X mark is placed and the turn passes to O
        refine ⟨by simpa using ih.1, ih.2.1, fun hc => ?_, fun _ => ?_⟩
        · exact absurd (show (false : Bool) = true from hc) (by simp)
        · show countMark Mark.X (s.squares.set idx (some Mark.X)) =
            countMark Mark.O (s.squares.set idx (some Mark.X)) + 1
          rw [countMark_set_same s.squares idx hlt hempty,
            countMark_set_other s.squares idx hlt hempty Mark.X Mark.O (by simp),
            ih.2.2.1 hx]
  | restart _ ih =>
    exact stateInv_reset _ _ ih.2.1 false
  | modeChange val _ ih =>
    exact stateInv_reset _ _ ih.2.1 false
  | aiStart _ ih =>
    unfold aiEffectStart
    split
    · exact ⟨ih.1, ih.2.1, ih.2.2.1, ih.2.2.2⟩
    · exact ih
  | @aiApply s r _ ih =>
    unfold aiEffectApply
    split
    case isTrue hguard =>
      have hxf : s.xIsNext = false := by
        rcases hx : s.xIsNext with _ | _
        · rfl
        · rw [hx] at hguard
          simp at hguard
      split
      case h_1 mv hmv =>
        split
        case isTrue hnull =>
          have hempty : cellAt s.squares mv = none := of_decide_eq_true hnull
          have hmem := getBestAIMove_mem ih.1 hmv
          have hlt : mv < s.squares.length := (mem_getAvailableMoves.mp hmem).1
          refine ⟨by simpa using ih.1, ih.2.1, fun _ => ?_, fun hc => ?_⟩
          · show countMark Mark.X (s.squares.set mv (some Mark.O)) =
              countMark Mark.O (s.squares.set mv (some Mark.O))
            rw [countMark_set_same s.squares mv hlt hempty,
              countMark_set_other s.squares mv hlt hempty Mark.O Mark.X (by simp)]
            exact ih.2.2.2 hxf
          · exact absurd (show (true : Bool) = false from hc) (by simp)
        case isFalse =>
          exact ⟨ih.1, ih.2.1, ih.2.2.1, ih.2.2.2⟩
      case h_2 =>
        exact ⟨ih.1, ih.2.1, ih.2.2.1, ih.2.2.2⟩
    case isFalse => exact ih

/-- C4: in every reachable state the number of X cells equals the number
of O cells or exceeds it by exactly one. -/
theorem C4_move_count_invariant (s : GameState) (h : Reachable s) :
    countMark Mark.X s.squares = countMark Mark.O s.squares ∨
    countMark Mark.X s.squares = countMark Mark.O s.squares + 1 := by
  have inv := reachable_inv h
  rcases hx : s.xIsNext with _ | _
  · exact Or.inr (inv.2.2.2 hx)
  · exact Or.inl (inv.2.2.1 hx)

/-- Witness for C4: the initial state has equal counts. -/
theorem C4_witness :
    countMark Mark.X initState.squares = countMark Mark.O initState.squares ∨
    countMark Mark.X initState.squares = countMark Mark.O initState.squares + 1 :=
  C4_move_count_invariant initState Reachable.init

/-- C10: in every reachable state the AI mark is `O` (never `X` — no
operation ever writes that field), every AI-applied move writes the
literal mark `O` into an empty cell, and whenever the AI effect changes
the board it hands the turn back to X. -/
theorem C10_ai_mark_O (s : GameState) (h : Reachable s) :
    s.aiMark = Mark.O ∧
    ∀ r, (aiEffectApply r s).aiMark = Mark.O ∧
      ((aiEffectApply r s).squares ≠ s.squares →
        (aiEffectApply r s).xIsNext = true ∧
        ∃ i, i < 9 ∧ cellAt s.squares i = none ∧
          (aiEffectApply r s).squares = s.squares.set i (some Mark.O)) := by
  have inv := reachable_inv h
  refine ⟨inv.2.1, ?_⟩
  intro r
  unfold aiEffectApply
  split
  case isTrue =>
    split
    case h_1 mv hmv =>
      split
      case isTrue hnull =>
        refine ⟨inv.2.1, fun _ => ⟨rfl, mv, ?_, of_decide_eq_true hnull, rfl⟩⟩
        have hmem := getBestAIMove_mem inv.1 hmv
        have hlt : mv < s.squares.length := (mem_getAvailableMoves.mp hmem).1
        rw [inv.1] at hlt
        exact hlt
      case isFalse =>
        exact ⟨inv.2.1, fun hne => absurd rfl hne⟩
    case h_2 =>
      exact ⟨inv.2.1, fun hne => absurd rfl hne⟩
  case isFalse =>
    exact ⟨inv.2.1, fun hne => absurd rfl hne⟩

/-- Witness for C10: the initial state. -/
theorem C10_witness :
    initState.aiMark = Mark.O ∧
    ∀ r, (aiEffectApply r initState).aiMark = Mark.O ∧
      ((aiEffectApply r initState).squares ≠ initState.squares →
        (aiEffectApply r initState).xIsNext = true ∧
        ∃ i, i < 9 ∧ cellAt initState.squares i = none ∧
          (aiEffectApply r initState).squares = initState.squares.set i (some Mark.O)) :=
  C10_ai_mark_O initState Reachable.init

/-! ### NoLegalMove (C6) -/

/-- `minimax` on a board already won by the AI. -/
theorem minimax_of_winner_ai {ai pl : Mark} {fuel : Nat} {b : Board} {mx : Bool}
    (h : (calculateWinner b).winner = some ai) :
    minimax ai pl fuel b mx = (1, none) := by
  rw [minimax.eq_def, if_pos h]

/-- `minimax` on a board already won by the opponent. -/
theorem minimax_of_winner_pl {ai pl : Mark} {fuel : Nat} {b : Board} {mx : Bool}
    (hne : ¬ (calculateWinner b).winner = some ai)
    (h : (calculateWinner b).winner = some pl) :
    minimax ai pl fuel b mx = (-1, none) := by
  rw [minimax.eq_def, if_neg hne, if_pos h]

/-- `minimax` on a full drawn board. -/
theorem minimax_of_full {ai pl : Mark} {fuel : Nat} {b : Board} {mx : Bool}
    (h1 : ¬ (calculateWinner b).winner = some ai)
    (h2 : ¬ (calculateWinner b).winner = some pl)
    (h3 : b.all (fun x => x.isSome) = true) :
    minimax ai pl fuel b mx = (0, none) := by
  rw [minimax.eq_def, if_neg h1, if_neg h2, if_pos h3]

/-- On a 9-cell board with a winner, at least three cells are occupied,
so at most six moves remain. -/
theorem winner_avail_le_six {b : Board} (h9 : b.length = 9)
    (hw : (calculateWinner b).winner.isSome = true) :
    (getAvailableMoves b).length ≤ 6 := by
  obtain ⟨l, hl, m, hm⟩ := ((calculateWinner_spec b).1).mp hw
  have hsub : List.Sublist (getAvailableMoves b)
      ((List.range 9).filter (fun j => !(j == l.1 || j == l.2.1 || j == l.2.2))) := by
    rw [getAvailableMoves_eq, h9]
    apply List.monotone_filter_right
    intro j
    rcases hp : isNullAt b j with _ | _
    · intro hcontra
      cases hcontra
    · intro _
      have hjn : cellAt b j = none := of_decide_eq_true hp
      have hj1 : j ≠ l.1 := fun he => by
        rw [he, hm.1] at hjn
        cases hjn
      have hj2 : j ≠ l.2.1 := fun he => by
        rw [he, hm.2.1] at hjn
        cases hjn
      have hj3 : j ≠ l.2.2 := fun he => by
        rw [he, hm.2.2] at hjn
        cases hjn
      simp [hj1, hj2, hj3]
  have hle := hsub.length_le
  fin_cases hl <;> simpa using hle

/-- C6: on a 9-cell board with two distinct marks, `getBestAIMove`
returns no move (the JavaScript `undefined`, the NoLegalMove outcome)
exactly when the board is already won or full. -/
theorem C6_no_legal_move (r : Nat) (b : Board) (ai pl : Mark)
    (h9 : b.length = 9) (hne : ai ≠ pl) :
    getBestAIMove r b ai pl = none ↔
      ((calculateWinner b).winner.isSome = true ∨ boardFull b = true) := by
  unfold getBestAIMove
  by_cases he : 7 ≤ (getAvailableMoves b).length
  · rw [if_pos he]
    have hrhs : ¬ ((calculateWinner b).winner.isSome = true ∨ boardFull b = true) := by
      rintro (hw | hf)
      · have := winner_avail_le_six h9 hw
        omega
      · rw [boardFull_iff_avail_nil] at hf
        rw [hf] at he
        simp at he
    refine ⟨?_, fun h => absurd h hrhs⟩
    intro hnone
    exfalso
    by_cases h4 : isNullAt b 4 = true
    · rw [if_pos h4] at hnone
      cases hnone
    · rw [if_neg h4] at hnone
      by_cases hc : 0 < (emptyCorners b).length
      · rw [dif_pos hc] at hnone
        cases hnone
      · rw [dif_neg hc] at hnone
        by_cases hs : 0 < (emptySides b).length
        · rw [dif_pos hs] at hnone
          cases hnone
        · rw [dif_neg hs] at hnone
          have hne2 : getAvailableMoves b ≠ [] := by
            intro hnil
            rw [hnil] at he
            simp at he
          rcases hx : getAvailableMoves b with _ | ⟨x, t⟩
          · exact hne2 hx
          · rw [hx] at hnone
            cases hnone
  · rw [if_neg he]
    constructor
    · intro hnone
      by_cases hw : (calculateWinner b).winner.isSome = true
      · exact Or.inl hw
      · right
        rcases hwn : (calculateWinner b).winner with _ | w
        · by_cases hf : b.all (fun x => x.isSome) = true
          · exact hf
          · exfalso
            have h1 : ¬ (calculateWinner b).winner = some ai := by
              rw [hwn]
              intro hcontra
              cases hcontra
            have h2 : ¬ (calculateWinner b).winner = some pl := by
              rw [hwn]
              intro hcontra
              cases hcontra
            obtain ⟨m, hm⟩ := minimax_returns_move ai pl 8 b true h1 h2 hf
            rw [hm] at hnone
            cases hnone
        · exfalso
          rw [hwn] at hw
          exact hw rfl
    · intro h
      have hwcase : ∀ w : Mark, w = ai ∨ w = pl := by
        intro w
        rcases w with _ | _ <;> rcases hai : ai with _ | _ <;>
          rcases hpl : pl with _ | _ <;> simp_all
      rcases h with hw | hf
      · rcases hwn : (calculateWinner b).winner with _ | w
        · rw [hwn] at hw
          cases hw
        · rcases hwcase w with rfl | rfl
          · rw [show (minimax w pl 9 b true) = (1, none) from
              minimax_of_winner_ai hwn]
          · by_cases hai2 : (calculateWinner b).winner = some ai
            · rw [show (minimax ai w 9 b true) = (1, none) from
                minimax_of_winner_ai hai2]
            · rw [show (minimax ai w 9 b true) = (-1, none) from
                minimax_of_winner_pl hai2 hwn]
      · by_cases hai2 : (calculateWinner b).winner = some ai
        · rw [show (minimax ai pl 9 b true) = (1, none) from
            minimax_of_winner_ai hai2]
        · by_cases hpl2 : (calculateWinner b).winner = some pl
          · rw [show (minimax ai pl 9 b true) = (-1, none) from
              minimax_of_winner_pl hai2 hpl2]
          · rw [show (minimax ai pl 9 b true) = (0, none) from
              minimax_of_full hai2 hpl2 hf]

/-- Witness for C6: on the full drawn board the AI finds no move. -/
theorem C6_witness :
    getBestAIMove 0 drawBoard Mark.O Mark.X = none ↔
      ((calculateWinner drawBoard).winner.isSome = true ∨ boardFull drawBoard = true) :=
  C6_no_legal_move 0 drawBoard Mark.O Mark.X (by decide) (by decide)

/-! ### Full games against the AI (C1)

A game trace alternates between the human playing `X` (any legal move)
and the AI playing `O` with the move computed by `getBestAIMove`, as the
controller does in `ai` mode. -/

/-- Whose move it is. -/
inductive Turn where
  | human : Turn
  | ai : Turn
deriving DecidableEq, Repr

/-- One ply of a game against the AI. The human may choose any empty
cell of the 3×3 grid while the game is not over; the AI plays exactly
the move `getBestAIMove` returns (for some draw `r` of the random
source), which the effect then writes (after its own emptiness check)
as a literal `O`. -/
inductive GameStep : Board × Turn → Board × Turn → Prop where
  | xmove {b : Board} (i : Nat) :
      i < 9 → cellAt b i = none → terminalBoard b = false →
      GameStep (b, Turn.human) (b.set i (some Mark.X), Turn.ai)
  | omove {b : Board} (r m : Nat) :
      terminalBoard b = false →
      getBestAIMove r b Mark.O Mark.X = some m →
      cellAt b m = none →
      GameStep (b, Turn.ai) (b.set m (some Mark.O), Turn.human)

/-! The search-tree safety argument is carried out on a bit-mask mirror
of the board (one mask of X bits, one of O bits), whose arithmetic the
kernel evaluates fast; the mirror is proved equivalent to the `minimax`
value and evaluated only on the twelve opening positions. -/

/-- The cell a pair of masks represents at index `i`. -/
def cellF (xm om i : Nat) : Cell :=
  if xm.testBit i then some Mark.X
  else if om.testBit i then some Mark.O
  else none

/-- One mask contains a winning triple (the 8 lines, unrolled). -/
def winN (m : Nat) : Bool :=
  (m.testBit 0 && m.testBit 1 && m.testBit 2) ||
  (m.testBit 3 && m.testBit 4 && m.testBit 5) ||
  (m.testBit 6 && m.testBit 7 && m.testBit 8) ||
  (m.testBit 0 && m.testBit 3 && m.testBit 6) ||
  (m.testBit 1 && m.testBit 4 && m.testBit 7) ||
  (m.testBit 2 && m.testBit 5 && m.testBit 8) ||
  (m.testBit 0 && m.testBit 4 && m.testBit 8) ||
  (m.testBit 2 && m.testBit 4 && m.testBit 6)

/-- Free cells of a pair of masks, in ascending order. -/
def availN (xm om : Nat) : List Nat :=
  (List.range 9).filter (fun i => !xm.testBit i && !om.testBit i)

/-- `ndl fuel xm om isMax` ("never does lose"): the player `O` can keep
the game value non-negative from this position — `O` to move when
`isMax`, `X` to move otherwise. `any`/`all` short-circuit, which prunes
the search; the function is proved below to agree with the sign of the
`minimax` score. -/
def ndl : Nat → Nat → Nat → Bool → Bool
  | 0, xm, _, _ => !winN xm
  | fuel + 1, xm, om, isMax =>
    if winN xm then false
    else if winN om then true
    else
      match availN xm om with
      | [] => true
      | m :: ms =>
        if isMax then (m :: ms).any (fun j => ndl fuel xm (om ||| 1 <<< j) false)
        else (m :: ms).all (fun j => ndl fuel (xm ||| 1 <<< j) om true)

/-- Unfolding `ndl` at fuel zero. -/
theorem ndl_zero (xm om : Nat) (mx : Bool) : ndl 0 xm om mx = !winN xm := rfl

/-- Unfolding `ndl` at positive fuel. -/
theorem ndl_succ (f xm om : Nat) (mx : Bool) :
    ndl (f + 1) xm om mx =
      (if winN xm then false
       else if winN om then true
       else match availN xm om with
            | [] => true
            | m :: ms =>
              if mx then (m :: ms).any (fun j => ndl f xm (om ||| 1 <<< j) false)
              else (m :: ms).all (fun j => ndl f (xm ||| 1 <<< j) om true)) := rfl

/-- The masks `xm`/`om` represent the 9-cell board `b`. -/
def MaskRep (b : Board) (xm om : Nat) : Prop :=
  b.length = 9 ∧ (∀ i, i < 9 → cellAt b i = cellF xm om i) ∧
  (∀ i, i < 9 → ¬(xm.testBit i = true ∧ om.testBit i = true))

/-- Bits of a one-bit mask. -/
theorem testBit_one_shl (i j : Nat) :
    (1 <<< i).testBit j = decide (i = j) := by
  rw [Nat.one_shiftLeft]
  by_cases h : i = j
  · subst h
    rw [Nat.testBit_two_pow_self, decide_eq_true rfl]
  · rw [Nat.testBit_two_pow_of_ne h, Eq.comm, decide_eq_false h]

/-- Reading an `X` through the mask representation. -/
theorem maskRep_cellX {b : Board} {xm om : Nat} (hR : MaskRep b xm om)
    {i : Nat} (hi : i < 9) :
    cellAt b i = some Mark.X ↔ xm.testBit i = true := by
  rw [hR.2.1 i hi]
  unfold cellF
  by_cases hx : xm.testBit i = true
  · rw [if_pos hx]
    simp [hx]
  · rw [if_neg hx]
    by_cases ho : om.testBit i = true
    · rw [if_pos ho]
      simp [hx]
    · rw [if_neg ho]
      simp [hx]

/-- Reading an `O` through the mask representation. -/
theorem maskRep_cellO {b : Board} {xm om : Nat} (hR : MaskRep b xm om)
    {i : Nat} (hi : i < 9) :
    cellAt b i = some Mark.O ↔ om.testBit i = true := by
  rw [hR.2.1 i hi]
  unfold cellF
  by_cases hx : xm.testBit i = true
  · rw [if_pos hx]
    constructor
    · intro h
      cases h
    · intro ho
      exact absurd ⟨hx, ho⟩ (hR.2.2 i hi)
  · rw [if_neg hx]
    by_cases ho : om.testBit i = true
    · rw [if_pos ho]
      simp [ho]
    · rw [if_neg ho]
      simp [ho]

/-- Reading an empty cell through the mask representation. -/
theorem maskRep_cellNone {b : Board} {xm om : Nat} (hR : MaskRep b xm om)
    {i : Nat} (hi : i < 9) :
    cellAt b i = none ↔ (xm.testBit i = false ∧ om.testBit i = false) := by
  rw [hR.2.1 i hi]
  unfold cellF
  by_cases hx : xm.testBit i = true
  · rw [if_pos hx]
    simp [hx]
  · rw [if_neg hx]
    by_cases ho : om.testBit i = true
    · rw [if_pos ho]
      simp [ho]
    · rw [if_neg ho]
      simp [Bool.of_not_eq_true hx, Bool.of_not_eq_true ho]

/-- Placing an `X` on the board sets the corresponding bit. -/
theorem maskRep_set_X {b : Board} {xm om : Nat} (hR : MaskRep b xm om)
    {i : Nat} (hi : i < 9) (hcell : cellAt b i = none) :
    MaskRep (b.set i (some Mark.X)) (xm ||| 1 <<< i) om := by
  obtain ⟨hx0, ho0⟩ := (maskRep_cellNone hR hi).mp hcell
  refine ⟨by simpa using hR.1, ?_, ?_⟩
  · intro j hj
    by_cases hij : i = j
    · subst hij
      rw [cellAt_set_self (by rw [hR.1]; exact hi)]
      unfold cellF
      rw [Nat.testBit_or, testBit_one_shl, decide_eq_true rfl, Bool.or_true, if_pos rfl]
    · rw [cellAt_set_ne hij, hR.2.1 j hj]
      unfold cellF
      rw [Nat.testBit_or, testBit_one_shl, decide_eq_false hij, Bool.or_false]
  · intro j hj
    by_cases hij : i = j
    · subst hij
      rw [Nat.testBit_or, testBit_one_shl, decide_eq_true rfl, Bool.or_true]
      rintro ⟨_, ho⟩
      rw [ho0] at ho
      cases ho
    · rw [Nat.testBit_or, testBit_one_shl, decide_eq_false hij, Bool.or_false]
      exact hR.2.2 j hj

/-- Placing an `O` on the board sets the corresponding bit. -/
theorem maskRep_set_O {b : Board} {xm om : Nat} (hR : MaskRep b xm om)
    {i : Nat} (hi : i < 9) (hcell : cellAt b i = none) :
    MaskRep (b.set i (some Mark.O)) xm (om ||| 1 <<< i) := by
  obtain ⟨hx0, ho0⟩ := (maskRep_cellNone hR hi).mp hcell
  refine ⟨by simpa using hR.1, ?_, ?_⟩
  · intro j hj
    by_cases hij : i = j
    · subst hij
      rw [cellAt_set_self (by rw [hR.1]; exact hi)]
      unfold cellF
      rw [Nat.testBit_or, testBit_one_shl, decide_eq_true rfl, Bool.or_true, if_neg (by
        rw [hx0]
        exact Bool.false_ne_true), if_pos rfl]
    · rw [cellAt_set_ne hij, hR.2.1 j hj]
      unfold cellF
      rw [Nat.testBit_or, testBit_one_shl, decide_eq_false hij, Bool.or_false]
  · intro j hj
    by_cases hij : i = j
    · subst hij
      rw [Nat.testBit_or, testBit_one_shl, decide_eq_true rfl, Bool.or_true]
      rintro ⟨hx, _⟩
      rw [hx0] at hx
      cases hx
    · rw [Nat.testBit_or, testBit_one_shl, decide_eq_false hij, Bool.or_false]
      exact hR.2.2 j hj

/-- The X mask holds a line exactly when the board has an all-X triple. -/
theorem winNX_iff {b : Board} {xm om : Nat} (hR : MaskRep b xm om) :
    winN xm = true ↔ ∃ l ∈ lines, cellAt b l.1 = some Mark.X ∧
      cellAt b l.2.1 = some Mark.X ∧ cellAt b l.2.2 = some Mark.X := by
  have hc : ∀ i, i < 9 → (xm.testBit i = true ↔ cellAt b i = some Mark.X) :=
    fun i hi => (maskRep_cellX hR hi).symm
  constructor
  · intro h
    unfold winN at h
    simp only [Bool.or_eq_true, Bool.and_eq_true] at h
    rcases h with ((((((⟨⟨h1, h2⟩, h3⟩ | ⟨⟨h1, h2⟩, h3⟩) | ⟨⟨h1, h2⟩, h3⟩) |
      ⟨⟨h1, h2⟩, h3⟩) | ⟨⟨h1, h2⟩, h3⟩) | ⟨⟨h1, h2⟩, h3⟩) | ⟨⟨h1, h2⟩, h3⟩) |
      ⟨⟨h1, h2⟩, h3⟩
    · exact ⟨(0, 1, 2), by decide, (hc 0 (by omega)).mp h1,
        (hc 1 (by omega)).mp h2, (hc 2 (by omega)).mp h3⟩
    · exact ⟨(3, 4, 5), by decide, (hc 3 (by omega)).mp h1,
        (hc 4 (by omega)).mp h2, (hc 5 (by omega)).mp h3⟩
    · exact ⟨(6, 7, 8), by decide, (hc 6 (by omega)).mp h1,
        (hc 7 (by omega)).mp h2, (hc 8 (by omega)).mp h3⟩
    · exact ⟨(0, 3, 6), by decide, (hc 0 (by omega)).mp h1,
        (hc 3 (by omega)).mp h2, (hc 6 (by omega)).mp h3⟩
    · exact ⟨(1, 4, 7), by decide, (hc 1 (by omega)).mp h1,
        (hc 4 (by omega)).mp h2, (hc 7 (by omega)).mp h3⟩
    · exact ⟨(2, 5, 8), by decide, (hc 2 (by omega)).mp h1,
        (hc 5 (by omega)).mp h2, (hc 8 (by omega)).mp h3⟩
    · exact ⟨(0, 4, 8), by decide, (hc 0 (by omega)).mp h1,
        (hc 4 (by omega)).mp h2, (hc 8 (by omega)).mp h3⟩
    · exact ⟨(2, 4, 6), by decide, (hc 2 (by omega)).mp h1,
        (hc 4 (by omega)).mp h2, (hc 6 (by omega)).mp h3⟩
  · rintro ⟨l, hl, h1, h2, h3⟩
    have hl8 : l = (0, 1, 2) ∨ l = (3, 4, 5) ∨ l = (6, 7, 8) ∨ l = (0, 3, 6) ∨
        l = (1, 4, 7) ∨ l = (2, 5, 8) ∨ l = (0, 4, 8) ∨ l = (2, 4, 6) := by
      simpa [lines] using hl
    unfold winN
    rcases hl8 with rfl | rfl | rfl | rfl | rfl | rfl | rfl | rfl
    · rw [(hc 0 (by omega)).mpr h1, (hc 1 (by omega)).mpr h2, (hc 2 (by omega)).mpr h3]
      simp
    · rw [(hc 3 (by omega)).mpr h1, (hc 4 (by omega)).mpr h2, (hc 5 (by omega)).mpr h3]
      simp
    · rw [(hc 6 (by omega)).mpr h1, (hc 7 (by omega)).mpr h2, (hc 8 (by omega)).mpr h3]
      simp
    · rw [(hc 0 (by omega)).mpr h1, (hc 3 (by omega)).mpr h2, (hc 6 (by omega)).mpr h3]
      simp
    · rw [(hc 1 (by omega)).mpr h1, (hc 4 (by omega)).mpr h2, (hc 7 (by omega)).mpr h3]
      simp
    · rw [(hc 2 (by omega)).mpr h1, (hc 5 (by omega)).mpr h2, (hc 8 (by omega)).mpr h3]
      simp
    · rw [(hc 0 (by omega)).mpr h1, (hc 4 (by omega)).mpr h2, (hc 8 (by omega)).mpr h3]
      simp
    · rw [(hc 2 (by omega)).mpr h1, (hc 4 (by omega)).mpr h2, (hc 6 (by omega)).mpr h3]
      simp

/-- The O mask holds a line exactly when the board has an all-O triple. -/
theorem winNO_iff {b : Board} {xm om : Nat} (hR : MaskRep b xm om) :
    winN om = true ↔ ∃ l ∈ lines, cellAt b l.1 = some Mark.O ∧
      cellAt b l.2.1 = some Mark.O ∧ cellAt b l.2.2 = some Mark.O := by
  have hc : ∀ i, i < 9 → (om.testBit i = true ↔ cellAt b i = some Mark.O) :=
    fun i hi => (maskRep_cellO hR hi).symm
  constructor
  · intro h
    unfold winN at h
    simp only [Bool.or_eq_true, Bool.and_eq_true] at h
    rcases h with ((((((⟨⟨h1, h2⟩, h3⟩ | ⟨⟨h1, h2⟩, h3⟩) | ⟨⟨h1, h2⟩, h3⟩) |
      ⟨⟨h1, h2⟩, h3⟩) | ⟨⟨h1, h2⟩, h3⟩) | ⟨⟨h1, h2⟩, h3⟩) | ⟨⟨h1, h2⟩, h3⟩) |
      ⟨⟨h1, h2⟩, h3⟩
    · exact ⟨(0, 1, 2), by decide, (hc 0 (by omega)).mp h1,
        (hc 1 (by omega)).mp h2, (hc 2 (by omega)).mp h3⟩
    · exact ⟨(3, 4, 5), by decide, (hc 3 (by omega)).mp h1,
        (hc 4 (by omega)).mp h2, (hc 5 (by omega)).mp h3⟩
    · exact ⟨(6, 7, 8), by decide, (hc 6 (by omega)).mp h1,
        (hc 7 (by omega)).mp h2, (hc 8 (by omega)).mp h3⟩
    · exact ⟨(0, 3, 6), by decide, (hc 0 (by omega)).mp h1,
        (hc 3 (by omega)).mp h2, (hc 6 (by omega)).mp h3⟩
    · exact ⟨(1, 4, 7), by decide, (hc 1 (by omega)).mp h1,
        (hc 4 (by omega)).mp h2, (hc 7 (by omega)).mp h3⟩
    · exact ⟨(2, 5, 8), by decide, (hc 2 (by omega)).mp h1,
        (hc 5 (by omega)).mp h2, (hc 8 (by omega)).mp h3⟩
    · exact ⟨(0, 4, 8), by decide, (hc 0 (by omega)).mp h1,
        (hc 4 (by omega)).mp h2, (hc 8 (by omega)).mp h3⟩
    · exact ⟨(2, 4, 6), by decide, (hc 2 (by omega)).mp h1,
        (hc 4 (by omega)).mp h2, (hc 6 (by omega)).mp h3⟩
  · rintro ⟨l, hl, h1, h2, h3⟩
    have hl8 : l = (0, 1, 2) ∨ l = (3, 4, 5) ∨ l = (6, 7, 8) ∨ l = (0, 3, 6) ∨
        l = (1, 4, 7) ∨ l = (2, 5, 8) ∨ l = (0, 4, 8) ∨ l = (2, 4, 6) := by
      simpa [lines] using hl
    unfold winN
    rcases hl8 with rfl | rfl | rfl | rfl | rfl | rfl | rfl | rfl
    · rw [(hc 0 (by omega)).mpr h1, (hc 1 (by omega)).mpr h2, (hc 2 (by omega)).mpr h3]
      simp
    · rw [(hc 3 (by omega)).mpr h1, (hc 4 (by omega)).mpr h2, (hc 5 (by omega)).mpr h3]
      simp
    · rw [(hc 6 (by omega)).mpr h1, (hc 7 (by omega)).mpr h2, (hc 8 (by omega)).mpr h3]
      simp
    · rw [(hc 0 (by omega)).mpr h1, (hc 3 (by omega)).mpr h2, (hc 6 (by omega)).mpr h3]
      simp
    · rw [(hc 1 (by omega)).mpr h1, (hc 4 (by omega)).mpr h2, (hc 7 (by omega)).mpr h3]
      simp
    · rw [(hc 2 (by omega)).mpr h1, (hc 5 (by omega)).mpr h2, (hc 8 (by omega)).mpr h3]
      simp
    · rw [(hc 0 (by omega)).mpr h1, (hc 4 (by omega)).mpr h2, (hc 8 (by omega)).mpr h3]
      simp
    · rw [(hc 2 (by omega)).mpr h1, (hc 4 (by omega)).mpr h2, (hc 6 (by omega)).mpr h3]
      simp

/-- On a board whose masks do not both hold a line, `calculateWinner`
reports exactly the mask that does. -/
theorem winner_eq_mask {b : Board} {xm om : Nat} (hR : MaskRep b xm om)
    (hnb : ¬(winN xm = true ∧ winN om = true)) :
    (calculateWinner b).winner =
      (if winN xm = true then some Mark.X else
        if winN om = true then some Mark.O else none) := by
  have hspec := scanLines_eq_find b lines
  unfold calculateWinner
  rw [hspec]
  rcases hf : lines.find? (lineFilled b) with _ | l
  · have hnX : ¬ winN xm = true := by
      intro h
      obtain ⟨l, hl, h1, h2, h3⟩ := (winNX_iff hR).mp h
      apply List.find?_eq_none.mp hf l hl
      unfold lineFilled
      rw [h1]
      exact decide_eq_true ⟨h2, h3⟩
    have hnO : ¬ winN om = true := by
      intro h
      obtain ⟨l, hl, h1, h2, h3⟩ := (winNO_iff hR).mp h
      apply List.find?_eq_none.mp hf l hl
      unfold lineFilled
      rw [h1]
      exact decide_eq_true ⟨h2, h3⟩
    rw [if_neg hnX, if_neg hnO]
  · have hfill : lineFilled b l = true := List.find?_some hf
    have hmem : l ∈ lines := List.mem_of_find?_eq_some hf
    have hmono : ∃ m, cellAt b l.1 = some m ∧ cellAt b l.2.1 = some m ∧
        cellAt b l.2.2 = some m := by
      unfold lineFilled at hfill
      rcases h : cellAt b l.1 with _ | m
      · rw [h] at hfill
        cases hfill
      · rw [h] at hfill
        exact ⟨m, rfl, of_decide_eq_true hfill⟩
    obtain ⟨m, hm1, hm2, hm3⟩ := hmono
    rcases m with _ | _
    · have hwx : winN xm = true := (winNX_iff hR).mpr ⟨l, hmem, hm1, hm2, hm3⟩
      rw [if_pos hwx]
      show cellAt b l.1 = some Mark.X
      exact hm1
    · have hwo : winN om = true := (winNO_iff hR).mpr ⟨l, hmem, hm1, hm2, hm3⟩
      have hnx : ¬ winN xm = true := fun hwx => hnb ⟨hwx, hwo⟩
      rw [if_neg hnx, if_pos hwo]
      show cellAt b l.1 = some Mark.O
      exact hm1

/-- Mask moves are exactly the board's available moves. -/
theorem availN_mem {b : Board} {xm om : Nat} (hR : MaskRep b xm om) {j : Nat} :
    j ∈ availN xm om ↔ j ∈ getAvailableMoves b := by
  unfold availN
  rw [List.mem_filter, List.mem_range, mem_getAvailableMoves, hR.1]
  constructor
  · rintro ⟨hj9, hbits⟩
    rw [Bool.and_eq_true, Bool.not_eq_true', Bool.not_eq_true'] at hbits
    exact ⟨hj9, (maskRep_cellNone hR hj9).mpr ⟨hbits.1, hbits.2⟩⟩
  · rintro ⟨hj9, hcell⟩
    obtain ⟨hx, ho⟩ := (maskRep_cellNone hR hj9).mp hcell
    refine ⟨hj9, ?_⟩
    rw [Bool.and_eq_true, Bool.not_eq_true', Bool.not_eq_true']
    exact ⟨hx, ho⟩

/-- Mask emptiness matches board fullness. -/
theorem availN_nil_iff {b : Board} {xm om : Nat} (hR : MaskRep b xm om) :
    availN xm om = [] ↔ getAvailableMoves b = [] := by
  rw [List.eq_nil_iff_forall_not_mem, List.eq_nil_iff_forall_not_mem]
  constructor
  · intro h j hj
    exact h j ((availN_mem hR).mpr hj)
  · intro h j hj
    exact h j ((availN_mem hR).mp hj)

/-- The `minimax` result does not depend on the fuel once the fuel
covers the number of empty cells. -/
theorem minimax_fuel_inv (ai pl : Mark) :
    ∀ (e : Nat) (b : Board), (getAvailableMoves b).length = e →
      ∀ (f g : Nat) (mx : Bool), e ≤ f → e ≤ g →
      minimax ai pl f b mx = minimax ai pl g b mx := by
  intro e
  induction e using Nat.strong_induction_on with
  | _ e ih =>
    intro b hb f g mx hf hg
    by_cases h1 : (calculateWinner b).winner = some ai
    · rw [minimax_of_winner_ai h1, minimax_of_winner_ai h1]
    · by_cases h2 : (calculateWinner b).winner = some pl
      · rw [minimax_of_winner_pl h1 h2, minimax_of_winner_pl h1 h2]
      · by_cases h3 : b.all (fun x => x.isSome) = true
        · rw [minimax_of_full h1 h2 h3, minimax_of_full h1 h2 h3]
        · have hne : getAvailableMoves b ≠ [] := fun hnil =>
            h3 (boardFull_iff_avail_nil.mpr hnil)
          have hepos : 0 < e := by
            rcases hav : getAvailableMoves b with _ | ⟨x, t⟩
            · exact absurd hav hne
            · rw [hav] at hb
              simp only [List.length_cons] at hb
              omega
          rcases f with _ | f
          · omega
          rcases g with _ | g
          · omega
          cases mx
          · rw [minimax_min_eq ai pl f b h1 h2 h3, minimax_min_eq ai pl g b h1 h2 h3]
            apply List.foldl_ext
            intro acc j hj
            unfold stepOfMin
            rcases mem_getAvailableMoves.mp hj with ⟨hjl, hjc⟩
            have hdec := avail_set_length hjl hjc pl
            have hchild : minimax ai pl f (b.set j (some pl)) true =
                minimax ai pl g (b.set j (some pl)) true :=
              ih (e - 1) (by omega) (b.set j (some pl)) (by omega) f g true
                (by omega) (by omega)
            simp only [hchild]
          · rw [minimax_max_eq ai pl f b h1 h2 h3, minimax_max_eq ai pl g b h1 h2 h3]
            apply List.foldl_ext
            intro acc j hj
            unfold stepOfMax
            rcases mem_getAvailableMoves.mp hj with ⟨hjl, hjc⟩
            have hdec := avail_set_length hjl hjc ai
            have hchild : minimax ai pl f (b.set j (some ai)) false =
                minimax ai pl g (b.set j (some ai)) false :=
              ih (e - 1) (by omega) (b.set j (some ai)) (by omega) f g false
                (by omega) (by omega)
            simp only [hchild]

/-- The pruned mask checker agrees with the sign of the `minimax` score:
`O` keeps the value non-negative exactly when `ndl` says so. -/
theorem ndl_iff :
    ∀ (fuel : Nat) (b : Board) (xm om : Nat) (mx : Bool),
      MaskRep b xm om → ¬(winN xm = true ∧ winN om = true) →
      (ndl fuel xm om mx = true ↔ 0 ≤ (minimax Mark.O Mark.X fuel b mx).1) := by
  intro fuel
  induction fuel with
  | zero =>
    intro b xm om mx hR hnb
    rw [ndl_zero]
    by_cases hwx : winN xm = true
    · have hw : (calculateWinner b).winner = some Mark.X := by
        rw [winner_eq_mask hR hnb, if_pos hwx]
      have h1 : ¬ (calculateWinner b).winner = some Mark.O := by
        rw [hw]
        simp
      rw [hwx, minimax_of_winner_pl h1 hw]
      exact iff_of_false (by simp) (by norm_num)
    · rw [Bool.of_not_eq_true hwx]
      by_cases hwo : winN om = true
      · have hw : (calculateWinner b).winner = some Mark.O := by
          rw [winner_eq_mask hR hnb, if_neg hwx, if_pos hwo]
        rw [minimax_of_winner_ai hw]
        exact iff_of_true rfl (by norm_num)
      · have hw : (calculateWinner b).winner = none := by
          rw [winner_eq_mask hR hnb, if_neg hwx, if_neg hwo]
        have h1 : ¬ (calculateWinner b).winner = some Mark.O := by
          rw [hw]
          simp
        have h2 : ¬ (calculateWinner b).winner = some Mark.X := by
          rw [hw]
          simp
        by_cases h3 : b.all (fun x => x.isSome) = true
        · rw [minimax_of_full h1 h2 h3]
          exact iff_of_true rfl (le_refl 0)
        · have hM : minimax Mark.O Mark.X 0 b mx = (0, none) := by
            rw [minimax.eq_def, if_neg h1, if_neg h2, if_neg h3]
          rw [hM]
          exact iff_of_true rfl (le_refl 0)
  | succ f ih =>
    intro b xm om mx hR hnb
    by_cases hwx : winN xm = true
    · have hw : (calculateWinner b).winner = some Mark.X := by
        rw [winner_eq_mask hR hnb, if_pos hwx]
      have h1 : ¬ (calculateWinner b).winner = some Mark.O := by
        rw [hw]
        simp
      have hL : ndl (f + 1) xm om mx = false := by
        rw [ndl_succ, if_pos hwx]
      rw [hL, minimax_of_winner_pl h1 hw]
      exact iff_of_false (by simp) (by norm_num)
    · by_cases hwo : winN om = true
      · have hw : (calculateWinner b).winner = some Mark.O := by
          rw [winner_eq_mask hR hnb, if_neg hwx, if_pos hwo]
        have hL : ndl (f + 1) xm om mx = true := by
          rw [ndl_succ, if_neg hwx, if_pos hwo]
        rw [hL, minimax_of_winner_ai hw]
        exact iff_of_true rfl (by norm_num)
      · have hw : (calculateWinner b).winner = none := by
          rw [winner_eq_mask hR hnb, if_neg hwx, if_neg hwo]
        have h1 : ¬ (calculateWinner b).winner = some Mark.O := by
          rw [hw]
          simp
        have h2 : ¬ (calculateWinner b).winner = some Mark.X := by
          rw [hw]
          simp
        rcases hav : availN xm om with _ | ⟨a0, arest⟩
        · have havb : getAvailableMoves b = [] := (availN_nil_iff hR).mp hav
          have hfull : b.all (fun x => x.isSome) = true :=
            boardFull_iff_avail_nil.mpr havb
          have hL : ndl (f + 1) xm om mx = true := by
            rw [ndl_succ, if_neg hwx, if_neg hwo, hav]
          rw [hL, minimax_of_full h1 h2 hfull]
          exact iff_of_true rfl (le_refl 0)
        · have havb : getAvailableMoves b ≠ [] := by
            intro hnil
            have := (availN_nil_iff hR).mpr hnil
            rw [hav] at this
            cases this
          have hfull : ¬ b.all (fun x => x.isSome) = true := fun hfl =>
            havb (boardFull_iff_avail_nil.mp hfl)
          have hL : ndl (f + 1) xm om mx =
              (if mx then (a0 :: arest).any (fun j => ndl f xm (om ||| 1 <<< j) false)
                else (a0 :: arest).all (fun j => ndl f (xm ||| 1 <<< j) om true)) := by
            rw [ndl_succ, if_neg hwx, if_neg hwo, hav]
          cases mx
          · -- X to move: minimize
            rw [minimax_min_eq Mark.O Mark.X f b h1 h2 hfull]
            rcases foldl_stepOfMin_spec
                (fun move => (minimax Mark.O Mark.X f (b.set move (some Mark.X)) true).1)
                (getAvailableMoves b) 2 none with ⟨heq, hb2⟩ | ⟨m, hm, heq, _, hlb⟩
            · exfalso
              rcases hx : getAvailableMoves b with _ | ⟨x, t⟩
              · exact havb hx
              · have hgx := hb2 x (by rw [hx]; exact List.mem_cons_self _ _)
                have := (minimax_score_bounds Mark.O Mark.X f
                  (b.set x (some Mark.X)) true).2
                omega
            · rw [heq, hL]
              have hper : ∀ j ∈ availN xm om,
                  (ndl f (xm ||| 1 <<< j) om true = true ↔
                    0 ≤ (minimax Mark.O Mark.X f (b.set j (some Mark.X)) true).1) := by
                intro j hj
                rcases mem_getAvailableMoves.mp ((availN_mem hR).mp hj) with ⟨hjl, hjc⟩
                have hj9 : j < 9 := by
                  rw [← hR.1]
                  exact hjl
                exact ih (b.set j (some Mark.X)) (xm ||| 1 <<< j) om true
                  (maskRep_set_X hR hj9 hjc) (fun hpair => hwo hpair.2)
              show ((a0 :: arest).all (fun j => ndl f (xm ||| 1 <<< j) om true) = true) ↔ _
              rw [List.all_eq_true, ← hav]
              constructor
              · intro hall
                refine le_trans ?_ (hlb m hm)
                have hmN := (availN_mem hR).mpr hm
                exact (hper m hmN).mp (hall m hmN)
              · intro hge j hj
                refine (hper j hj).mpr ?_
                exact le_trans hge (hlb j ((availN_mem hR).mp hj))
          · -- O to move: maximize
            rw [minimax_max_eq Mark.O Mark.X f b h1 h2 hfull]
            rcases foldl_stepOfMax_spec
                (fun move => (minimax Mark.O Mark.X f (b.set move (some Mark.O)) false).1)
                (getAvailableMoves b) (-2) none with ⟨heq, hb2⟩ | ⟨m, hm, heq, _, hub⟩
            · exfalso
              rcases hx : getAvailableMoves b with _ | ⟨x, t⟩
              · exact havb hx
              · have hgx := hb2 x (by rw [hx]; exact List.mem_cons_self _ _)
                have := (minimax_score_bounds Mark.O Mark.X f
                  (b.set x (some Mark.O)) false).1
                omega
            · rw [heq, hL]
              have hper : ∀ j ∈ availN xm om,
                  (ndl f xm (om ||| 1 <<< j) false = true ↔
                    0 ≤ (minimax Mark.O Mark.X f (b.set j (some Mark.O)) false).1) := by
                intro j hj
                rcases mem_getAvailableMoves.mp ((availN_mem hR).mp hj) with ⟨hjl, hjc⟩
                have hj9 : j < 9 := by
                  rw [← hR.1]
                  exact hjl
                exact ih (b.set j (some Mark.O)) xm (om ||| 1 <<< j) false
                  (maskRep_set_O hR hj9 hjc) (fun hpair => hwx hpair.1)
              show ((a0 :: arest).any (fun j => ndl f xm (om ||| 1 <<< j) false) = true) ↔ _
              rw [List.any_eq_true, ← hav]
              constructor
              · rintro ⟨j, hj, hjd⟩
                refine le_trans ?_ (hub j ((availN_mem hR).mp hj))
                exact (hper j hj).mp hjd
              · intro hge
                have hmN := (availN_mem hR).mpr hm
                exact ⟨m, hmN, (hper m hmN).mpr hge⟩

/-! ### The twelve opening positions -/

/-- The position after X's first move at `i` and O's reply at `c`. -/
def xThenO (i c : Nat) : Board :=
  (emptyBoard.set i (some Mark.X)).set c (some Mark.O)

theorem ndl_open_0_4 : ndl 9 (1 <<< 0) (1 <<< 4) false = true := by decide!

theorem ndl_open_1_4 : ndl 9 (1 <<< 1) (1 <<< 4) false = true := by decide!

theorem ndl_open_2_4 : ndl 9 (1 <<< 2) (1 <<< 4) false = true := by decide!

theorem ndl_open_3_4 : ndl 9 (1 <<< 3) (1 <<< 4) false = true := by decide!

theorem ndl_open_5_4 : ndl 9 (1 <<< 5) (1 <<< 4) false = true := by decide!

theorem ndl_open_6_4 : ndl 9 (1 <<< 6) (1 <<< 4) false = true := by decide!

theorem ndl_open_7_4 : ndl 9 (1 <<< 7) (1 <<< 4) false = true := by decide!

theorem ndl_open_8_4 : ndl 9 (1 <<< 8) (1 <<< 4) false = true := by decide!

theorem ndl_open_4_0 : ndl 9 (1 <<< 4) (1 <<< 0) false = true := by decide!

theorem ndl_open_4_2 : ndl 9 (1 <<< 4) (1 <<< 2) false = true := by decide!

theorem ndl_open_4_6 : ndl 9 (1 <<< 4) (1 <<< 6) false = true := by decide!

theorem ndl_open_4_8 : ndl 9 (1 <<< 4) (1 <<< 8) false = true := by decide!

/-- A board with a single X mark has no winner. -/
theorem single_X_winner : ∀ i, i < 9 →
    (calculateWinner (emptyBoard.set i (some Mark.X))).winner = none := by decide

/-! ### The game invariant -/

/-- Splitting a non-terminal board. -/
theorem terminal_false_parts {b : Board} (h : terminalBoard b = false) :
    (calculateWinner b).winner = none ∧ b.all (fun x => x.isSome) = false := by
  unfold terminalBoard at h
  rw [Bool.or_eq_false_iff] at h
  refine ⟨?_, h.2⟩
  exact Option.isNone_iff_eq_none.mp (Option.not_isSome.mp h.1)

/-- Invariant of games against the AI: the board always has 9 cells, X
has never completed a line, and — while the game is running — the
position is either still in the opening (at most two marks placed, the
second by the heuristic) or has a non-negative `minimax` value for the
player to move, seen from O. -/
def AIInv : Board × Turn → Prop
  | (b, Turn.human) =>
    b.length = 9 ∧ (calculateWinner b).winner ≠ some Mark.X ∧
    (terminalBoard b = false →
      (b = emptyBoard ∨
        ((getAvailableMoves b).length ≤ 7 ∧
          0 ≤ (minimax Mark.O Mark.X 9 b false).1)))
  | (b, Turn.ai) =>
    b.length = 9 ∧ (calculateWinner b).winner ≠ some Mark.X ∧
    (terminalBoard b = false →
      ((∃ i, i < 9 ∧ b = emptyBoard.set i (some Mark.X)) ∨
        ((getAvailableMoves b).length ≤ 6 ∧
          0 ≤ (minimax Mark.O Mark.X 9 b true).1)))

/-- Packaged invariant for an opening position, fed by the `ndl`
evaluations. -/
theorem opening_target (i c : Nat)
    (hR : MaskRep (xThenO i c) (1 <<< i) (1 <<< c))
    (hnb : ¬(winN (1 <<< i) = true ∧ winN (1 <<< c) = true))
    (hnd : ndl 9 (1 <<< i) (1 <<< c) false = true)
    (hw : (calculateWinner (xThenO i c)).winner = none)
    (he : (getAvailableMoves (xThenO i c)).length ≤ 7) :
    AIInv (xThenO i c, Turn.human) := by
  refine ⟨by simp [xThenO, emptyBoard], by rw [hw]; simp,
    fun _ => Or.inr ⟨he, (ndl_iff 9 (xThenO i c) (1 <<< i) (1 <<< c) false hR hnb).mp hnd⟩⟩

/-- One ply preserves the invariant. -/
theorem aiInv_step {p q : Board × Turn} (hst : GameStep p q) (hInv : AIInv p) :
    AIInv q := by
  cases hst with
  | @xmove b i hi9 hcell hterm =>
    obtain ⟨h9, hwX, hrest⟩ := hInv
    obtain ⟨hwnone, hfullf⟩ := terminal_false_parts hterm
    have h1 : ¬ (calculateWinner b).winner = some Mark.O := by
      rw [hwnone]
      simp
    have h2 : ¬ (calculateWinner b).winner = some Mark.X := by
      rw [hwnone]
      simp
    have h3 : ¬ b.all (fun x => x.isSome) = true := by
      rw [hfullf]
      simp
    have hi_lt : i < b.length := by
      rw [h9]
      exact hi9
    have hmem : i ∈ getAvailableMoves b := mem_getAvailableMoves.mpr ⟨hi_lt, hcell⟩
    rcases hrest hterm with rfl | ⟨he7, hval⟩
    · refine ⟨by simpa using h9, ?_, fun _ => Or.inl ⟨i, hi9, rfl⟩⟩
      rw [single_X_winner i hi9]
      simp
    · have hval8 : 0 ≤ (minimax Mark.O Mark.X 8 (b.set i (some Mark.X)) true).1 := by
        have h98 : (9 : Nat) = 8 + 1 := rfl
        rw [h98, minimax_min_eq Mark.O Mark.X 8 b h1 h2 h3] at hval
        rcases foldl_stepOfMin_spec
            (fun move => (minimax Mark.O Mark.X 8 (b.set move (some Mark.X)) true).1)
            (getAvailableMoves b) 2 none with ⟨heq, hb2⟩ | ⟨m, hm, heq, _, hlb⟩
        · have := hb2 i hmem
          omega
        · rw [heq] at hval
          have hval2 : (0 : Int) ≤
              (minimax Mark.O Mark.X 8 (b.set m (some Mark.X)) true).1 := hval
          exact le_trans hval2 (hlb i hmem)
      have h9b : (b.set i (some Mark.X)).length = 9 := by simpa using h9
      have hdec := avail_set_length hi_lt hcell Mark.X
      have hval9 : 0 ≤ (minimax Mark.O Mark.X 9 (b.set i (some Mark.X)) true).1 := by
        have heq98 : minimax Mark.O Mark.X 9 (b.set i (some Mark.X)) true =
            minimax Mark.O Mark.X 8 (b.set i (some Mark.X)) true :=
          minimax_fuel_inv Mark.O Mark.X
            ((getAvailableMoves (b.set i (some Mark.X))).length)
            (b.set i (some Mark.X)) rfl 9 8 true (by omega) (by omega)
        rw [heq98]
        exact hval8
      have hwX2 : (calculateWinner (b.set i (some Mark.X))).winner ≠ some Mark.X := by
        intro hwin
        have hne : ¬ (calculateWinner (b.set i (some Mark.X))).winner = some Mark.O := by
          rw [hwin]
          simp
        have hm8 : minimax Mark.O Mark.X 8 (b.set i (some Mark.X)) true = (-1, none) :=
          minimax_of_winner_pl hne hwin
        rw [hm8] at hval8
        norm_num at hval8
      exact ⟨h9b, hwX2, fun _ => Or.inr ⟨by omega, hval9⟩⟩
  | @omove b r m hterm hmv hcell =>
    obtain ⟨h9, hwX, hrest⟩ := hInv
    obtain ⟨hwnone, hfullf⟩ := terminal_false_parts hterm
    have h1 : ¬ (calculateWinner b).winner = some Mark.O := by
      rw [hwnone]
      simp
    have h2 : ¬ (calculateWinner b).winner = some Mark.X := by
      rw [hwnone]
      simp
    have h3 : ¬ b.all (fun x => x.isSome) = true := by
      rw [hfullf]
      simp
    have hmem : m ∈ getAvailableMoves b := getBestAIMove_mem h9 hmv
    have hm_lt : m < b.length := (mem_getAvailableMoves.mp hmem).1
    have hdec := avail_set_length hm_lt hcell Mark.O
    rcases hrest hterm with ⟨i, hi9, rfl⟩ | ⟨he6, hval⟩
    · -- the opening reply: twelve concrete positions
      interval_cases i
      · have hev : getBestAIMove r (emptyBoard.set 0 (some Mark.X)) Mark.O Mark.X =
            some 4 := rfl
        rw [hev] at hmv
        obtain rfl : (4 : Nat) = m := Option.some_injective _ hmv
        exact opening_target 0 4 (by unfold MaskRep; decide) (by decide) ndl_open_0_4
          (by decide) (by decide)
      · have hev : getBestAIMove r (emptyBoard.set 1 (some Mark.X)) Mark.O Mark.X =
            some 4 := rfl
        rw [hev] at hmv
        obtain rfl : (4 : Nat) = m := Option.some_injective _ hmv
        exact opening_target 1 4 (by unfold MaskRep; decide) (by decide) ndl_open_1_4
          (by decide) (by decide)
      · have hev : getBestAIMove r (emptyBoard.set 2 (some Mark.X)) Mark.O Mark.X =
            some 4 := rfl
        rw [hev] at hmv
        obtain rfl : (4 : Nat) = m := Option.some_injective _ hmv
        exact opening_target 2 4 (by unfold MaskRep; decide) (by decide) ndl_open_2_4
          (by decide) (by decide)
      · have hev : getBestAIMove r (emptyBoard.set 3 (some Mark.X)) Mark.O Mark.X =
            some 4 := rfl
        rw [hev] at hmv
        obtain rfl : (4 : Nat) = m := Option.some_injective _ hmv
        exact opening_target 3 4 (by unfold MaskRep; decide) (by decide) ndl_open_3_4
          (by decide) (by decide)
      · -- X took the center: the AI answers with a random empty corner
        have hev : getBestAIMove r (emptyBoard.set 4 (some Mark.X)) Mark.O Mark.X =
            some ((emptyCorners (emptyBoard.set 4 (some Mark.X))).get
              ⟨r % 4, Nat.mod_lt r (by decide)⟩) := rfl
        rw [hev] at hmv
        obtain rfl := Option.some_injective _ hmv
        have hmm : (emptyCorners (emptyBoard.set 4 (some Mark.X))).get
            ⟨r % 4, Nat.mod_lt r (by decide)⟩ ∈ [0, 2, 6, 8] :=
          List.get_mem _ _ _
        have hd : ∀ y : Nat, y ∈ [0, 2, 6, 8] → y = 0 ∨ y = 2 ∨ y = 6 ∨ y = 8 := by
          intro y hy
          simpa using hy
        rcases hd _ hmm with he | he | he | he <;> rw [he]
        · exact opening_target 4 0 (by unfold MaskRep; decide) (by decide) ndl_open_4_0
            (by decide) (by decide)
        · exact opening_target 4 2 (by unfold MaskRep; decide) (by decide) ndl_open_4_2
            (by decide) (by decide)
        · exact opening_target 4 6 (by unfold MaskRep; decide) (by decide) ndl_open_4_6
            (by decide) (by decide)
        · exact opening_target 4 8 (by unfold MaskRep; decide) (by decide) ndl_open_4_8
            (by decide) (by decide)
      · have hev : getBestAIMove r (emptyBoard.set 5 (some Mark.X)) Mark.O Mark.X =
            some 4 := rfl
        rw [hev] at hmv
        obtain rfl : (4 : Nat) = m := Option.some_injective _ hmv
        exact opening_target 5 4 (by unfold MaskRep; decide) (by decide) ndl_open_5_4
          (by decide) (by decide)
      · have hev : getBestAIMove r (emptyBoard.set 6 (some Mark.X)) Mark.O Mark.X =
            some 4 := rfl
        rw [hev] at hmv
        obtain rfl : (4 : Nat) = m := Option.some_injective _ hmv
        exact opening_target 6 4 (by unfold MaskRep; decide) (by decide) ndl_open_6_4
          (by decide) (by decide)
      · have hev : getBestAIMove r (emptyBoard.set 7 (some Mark.X)) Mark.O Mark.X =
            some 4 := rfl
        rw [hev] at hmv
        obtain rfl : (4 : Nat) = m := Option.some_injective _ hmv
        exact opening_target 7 4 (by unfold MaskRep; decide) (by decide) ndl_open_7_4
          (by decide) (by decide)
      · have hev : getBestAIMove r (emptyBoard.set 8 (some Mark.X)) Mark.O Mark.X =
            some 4 := rfl
        rw [hev] at hmv
        obtain rfl : (4 : Nat) = m := Option.some_injective _ hmv
        exact opening_target 8 4 (by unfold MaskRep; decide) (by decide) ndl_open_8_4
          (by decide) (by decide)
    · -- the minimax-controlled reply
      have he7 : ¬ 7 ≤ (getAvailableMoves b).length := by omega
      unfold getBestAIMove at hmv
      rw [if_neg he7] at hmv
      have h98 : (9 : Nat) = 8 + 1 := rfl
      rw [h98, minimax_max_eq Mark.O Mark.X 8 b h1 h2 h3] at hmv hval
      rcases foldl_stepOfMax_spec
          (fun move => (minimax Mark.O Mark.X 8 (b.set move (some Mark.O)) false).1)
          (getAvailableMoves b) (-2) none with ⟨heq, hb2⟩ | ⟨m0, hm0, heq, _, hub⟩
      · rw [heq] at hmv
        cases hmv
      · rw [heq] at hmv hval
        obtain rfl : m0 = m := Option.some_injective _ hmv
        have hval8 : 0 ≤ (minimax Mark.O Mark.X 8 (b.set m0 (some Mark.O)) false).1 :=
          hval
        have h9b : (b.set m0 (some Mark.O)).length = 9 := by simpa using h9
        have hval9 : 0 ≤ (minimax Mark.O Mark.X 9 (b.set m0 (some Mark.O)) false).1 := by
          have heq98 : minimax Mark.O Mark.X 9 (b.set m0 (some Mark.O)) false =
              minimax Mark.O Mark.X 8 (b.set m0 (some Mark.O)) false :=
            minimax_fuel_inv Mark.O Mark.X
              ((getAvailableMoves (b.set m0 (some Mark.O))).length)
              (b.set m0 (some Mark.O)) rfl 9 8 false (by omega) (by omega)
          rw [heq98]
          exact hval8
        have hwX2 : (calculateWinner (b.set m0 (some Mark.O))).winner ≠ some Mark.X := by
          intro hwin
          have hne : ¬ (calculateWinner (b.set m0 (some Mark.O))).winner =
              some Mark.O := by
            rw [hwin]
            simp
          have hm8 : minimax Mark.O Mark.X 8 (b.set m0 (some Mark.O)) false =
              (-1, none) :=
            minimax_of_winner_pl hne hwin
          rw [hm8] at hval8
          norm_num at hval8
        exact ⟨h9b, hwX2, fun _ => Or.inr ⟨by omega, hval9⟩⟩

/-- Every position reachable in a game against the AI satisfies the
invariant. -/
theorem aiInv_reach (p : Board × Turn)
    (h : Relation.ReflTransGen GameStep (emptyBoard, Turn.human) p) :
    AIInv p := by
  induction h with
  | refl => exact ⟨by decide, by decide, fun _ => Or.inl rfl⟩
  | tail _ hbc ih => exact aiInv_step hbc ih

/-- C1: in AI mode, a game played from the empty board — the human
placing X on any empty cell, the AI effect answering with the move
`getBestAIMove` picks — can never end with X as the winner: once the
board is terminal, `calculateWinner` does not name the human's mark. -/
theorem C1_ai_never_loses (p : Board × Turn)
    (h : Relation.ReflTransGen GameStep (emptyBoard, Turn.human) p)
    (hterm : terminalBoard p.1 = true) :
    (calculateWinner p.1).winner ≠ some Mark.X := by
  have hinv := aiInv_reach p h
  obtain ⟨b, t⟩ := p
  cases t
  · exact hinv.2.1
  · exact hinv.2.1

/-! A complete concrete game for the witness: X plays 0, 1, 3; the AI
answers 4, 2 and finally 6, winning on the (2, 4, 6) diagonal. -/

def wb1 : Board := emptyBoard.set 0 (some Mark.X)

def wb2 : Board := wb1.set 4 (some Mark.O)

def wb3 : Board := wb2.set 1 (some Mark.X)

def wb4 : Board := wb3.set 2 (some Mark.O)

def wb5 : Board := wb4.set 3 (some Mark.X)

def wb6 : Board := wb5.set 6 (some Mark.O)

theorem C1_witness :
    terminalBoard wb6 = true ∧ (calculateWinner wb6).winner ≠ some Mark.X := by
  have hmv1 : getBestAIMove 0 wb1 Mark.O Mark.X = some 4 := rfl
  have hmv3 : getBestAIMove 0 wb3 Mark.O Mark.X = some 2 := by decide!
  have hmv5 : getBestAIMove 0 wb5 Mark.O Mark.X = some 6 := by decide!
  have s1 : GameStep (emptyBoard, Turn.human) (wb1, Turn.ai) :=
    GameStep.xmove 0 (by decide) (by decide) (by decide)
  have s2 : GameStep (wb1, Turn.ai) (wb2, Turn.human) :=
    GameStep.omove 0 4 (by decide) hmv1 (by decide)
  have s3 : GameStep (wb2, Turn.human) (wb3, Turn.ai) :=
    GameStep.xmove 1 (by decide) (by decide) (by decide)
  have s4 : GameStep (wb3, Turn.ai) (wb4, Turn.human) :=
    GameStep.omove 0 2 (by decide) hmv3 (by decide)
  have s5 : GameStep (wb4, Turn.human) (wb5, Turn.ai) :=
    GameStep.xmove 3 (by decide) (by decide) (by decide)
  have s6 : GameStep (wb5, Turn.ai) (wb6, Turn.human) :=
    GameStep.omove 0 6 (by decide) hmv5 (by decide)
  have hreach : Relation.ReflTransGen GameStep (emptyBoard, Turn.human)
      (wb6, Turn.human) :=
    Relation.ReflTransGen.tail (Relation.ReflTransGen.tail
      (Relation.ReflTransGen.tail (Relation.ReflTransGen.tail
        (Relation.ReflTransGen.tail (Relation.ReflTransGen.tail
          Relation.ReflTransGen.refl s1) s2) s3) s4) s5) s6
  exact ⟨by decide, C1_ai_never_loses (wb6, Turn.human) hreach (by decide)⟩

end TicTacToe
